import Mathlib

/-!
Verification of the static-model integer arithmetic coder implemented in
`Arrifmetic_coding.cpp`.

The C++ source is shallowly embedded below.  All quantities that the program
stores in `uint64_t` variables are modelled as `Nat` together with an explicit
reduction `% 2 ^ 64` at every operation that can wrap; `uint32_t` casts are
modelled as `% 2 ^ 32`, and the `uint8_t` byte buffer of the bit writer as
`% 256`.  The two `while (true)` renormalization loops of the encoder and the
decoder are modelled with an explicit fuel parameter (the program itself uses
unbounded loops; theorems below settle when the fuel is and is not sufficient,
and exhibit initial states from which the loops never exit at all).
File input/output is abstracted: the compressor receives the input bytes as a
list and returns the header fields and payload it would write; the
decompressor receives the parsed header fields and payload bytes.
-/

namespace ArithCode

/-- Constant `1ULL << 32`, the number of values of `uint32_t`. -/
def U32 : Nat := 2 ^ 32

/-- Constant `2^64`, the modulus of `uint64_t` arithmetic. -/
def M64 : Nat := 2 ^ 64

/-- `MAX_VALUE = (1ULL << BITS) - 1` with `BITS = 32`. -/
def MAX_VALUE : Nat := 2 ^ 32 - 1

/-- `HALF = (MAX_VALUE / 2) + 1 = 2^31`. -/
def HALF : Nat := 2 ^ 31

/-- `QUARTER = HALF / 2 = 2^30`. -/
def QUARTER : Nat := 2 ^ 30

/-- `THREE_QUARTERS = QUARTER * 3`. -/
def THREE_QUARTERS : Nat := 3 * 2 ^ 30

/-- The format identifier `0x41524331` written in the header. -/
def MAGIC : Nat := 0x41524331

/-- `uint64_t` addition. -/
def add64 (a b : Nat) : Nat := (a + b) % M64

/-- `uint64_t` subtraction (two's complement wraparound); the stored operands
are always `< 2^64`. -/
def sub64 (a b : Nat) : Nat := (a + (M64 - b)) % M64

/-- `uint64_t` multiplication. -/
def mul64 (a b : Nat) : Nat := (a * b) % M64

/-- `low <<= 1` on a `uint64_t`. -/
def shiftLow (l : Nat) : Nat := (2 * l) % M64

/-- `high = (high << 1) | 1` on a `uint64_t`: the shifted value is even, so
the bitwise or with `1` adds one. -/
def shiftHigh (h : Nat) : Nat := (2 * h) % M64 + 1

/-- `value = (value << 1) | bit` on a `uint64_t` (`bit` is `0` or `1`). -/
def shiftValue (v bit : Nat) : Nat := (2 * v) % M64 + bit

/-- The frequency table built by `for (uint8_t b : data) freq[b]++;`
(entries are `uint32_t` counters). -/
def freqOf (data : List Nat) : Nat → Nat := fun b => data.count b % U32

/-- The exact (`uint64_t`) prefix sums `sum` accumulated by `buildCum`. -/
def cumRaw (freq : Nat → Nat) : Nat → Nat
  | 0 => 0
  | n + 1 => cumRaw freq n + freq n

/-- `buildCum`: `cum[0] = 0`, `cum[i+1] = static_cast<uint32_t>(sum)` where
`sum` is the running `uint64_t` prefix sum of `freq`. -/
def buildCum (freq : Nat → Nat) (i : Nat) : Nat := cumRaw freq i % U32

/-- `total = cum[256]` as computed by `buildCum`. -/
def totalOf (freq : Nat → Nat) : Nat := buildCum freq 256

/-- The loop of `findSymbol`: try `s`, `s+1`, ... while fuel lasts, returning
the first `s` with `scaled < cum[s+1]`; past the last index return `255`. -/
def findSymbolGo (scaled : Nat) (cum : Nat → Nat) : Nat → Nat → Nat
  | _, 0 => 255
  | s, fuel + 1 => if scaled < cum (s + 1) then s else findSymbolGo scaled cum (s + 1) fuel

/-- `findSymbol`: the first `s` in `0..255` with `scaled < cum[s+1]`, and the
fallback `255` when no index qualifies. -/
def findSymbol (scaled : Nat) (cum : Nat → Nat) : Nat := findSymbolGo scaled cum 0 256

/-- State of the `BitWriter` class: the `uint8_t` accumulator `buf_`, the
fill count `bits_`, the running count `totalBits_`, and the bytes put to the
output stream so far. -/
structure BitWriter where
  buf : Nat
  bits : Nat
  totalBits : Nat
  out : List Nat
  deriving Repr, DecidableEq

/-- A fresh `BitWriter`. -/
def BitWriter.start : BitWriter := ⟨0, 0, 0, []⟩

/-- `BitWriter::flushByte`. -/
def flushByte (w : BitWriter) : BitWriter := ⟨0, 0, w.totalBits, w.out ++ [w.buf]⟩

/-- `BitWriter::writeBit`: `buf_ = (buf_ << 1) | b` (a `uint8_t`, so the even
shifted value is reduced `% 256` and the or adds the bit), bump `bits_` and
`totalBits_`, flush on a full byte. -/
def writeBit (w : BitWriter) (b : Bool) : BitWriter :=
  let w2 : BitWriter :=
    ⟨((2 * w.buf) % 256 + (if b then 1 else 0)) % 256, w.bits + 1, w.totalBits + 1, w.out⟩
  if w2.bits == 8 then flushByte w2 else w2

/-- `BitWriter::flushFinal`: pad the partial byte with zero bits
(`buf_ <<= (8 - bits_)`) and flush it; a no-op on an empty buffer. -/
def flushFinal (w : BitWriter) : BitWriter :=
  if w.bits == 0 then w
  else flushByte ⟨(w.buf * 2 ^ (8 - w.bits)) % 256, w.bits, w.totalBits, w.out⟩

/-- Write a list of bits in order through `writeBit`. -/
def writeBits (w : BitWriter) (bs : List Bool) : BitWriter := bs.foldl writeBit w

/-- Encoder interval state: `low`, `high` (`uint64_t`) and the `pending`
underflow-bit counter. -/
structure EncSt where
  low : Nat
  high : Nat
  pending : Nat
  deriving Repr, DecidableEq

/-- The `while (pending > 0) { bw.writeBit(!bit); pending--; }` loop of
`outputBit`, as the list of bits it writes. -/
def outputBitLoop (b : Bool) : Nat → List Bool
  | 0 => []
  | n + 1 => (!b) :: outputBitLoop b n

/-- The `outputBit` lambda: write `bit`, then the pending inverted bits,
leaving `pending = 0`.  Returns the written bits and the new pending count. -/
def outputBit (b : Bool) (pending : Nat) : List Bool × Nat :=
  (b :: outputBitLoop b pending, 0)

/-- `range = high - low + 1` in `uint64_t` arithmetic. -/
def rangeOf (low high : Nat) : Nat := add64 (sub64 high low) 1

/-- `newLow = low + (range * cl) / total` in `uint64_t` arithmetic
(`cl = cum[s]`). -/
def narrowLow (total cl low high : Nat) : Nat :=
  add64 low (mul64 (rangeOf low high) cl / total)

/-- `newHigh = low + (range * ch) / total - 1` in `uint64_t` arithmetic
(`ch = cum[s+1]`). -/
def narrowHigh (total ch low high : Nat) : Nat :=
  sub64 (add64 low (mul64 (rangeOf low high) ch / total)) 1

/-- The condition under which the renormalization `while (true)` loop of
either coder takes another iteration instead of breaking out. -/
def renormActive (l h : Nat) : Prop :=
  h < HALF ∨ HALF ≤ l ∨ (QUARTER ≤ l ∧ h < THREE_QUARTERS)

instance (l h : Nat) : Decidable (renormActive l h) := by
  unfold renormActive; infer_instance

/-- The encoder's renormalization loop with fuel: returns the final
`(low, high, pending)` and the bits emitted, or `none` if the loop is still
running when the fuel runs out. -/
def encRenorm : Nat → Nat → Nat → Nat → Option (Nat × Nat × Nat × List Bool)
  | 0, _, _, _ => none
  | fuel + 1, low, high, pending =>
    if high < HALF then
      let e := outputBit false pending
      match encRenorm fuel (shiftLow low) (shiftHigh high) e.2 with
      | none => none
      | some (l, h, p, bs) => some (l, h, p, e.1 ++ bs)
    else if HALF ≤ low then
      let e := outputBit true pending
      match encRenorm fuel (shiftLow (sub64 low HALF)) (shiftHigh (sub64 high HALF)) e.2 with
      | none => none
      | some (l, h, p, bs) => some (l, h, p, e.1 ++ bs)
    else if QUARTER ≤ low ∧ high < THREE_QUARTERS then
      encRenorm fuel (shiftLow (sub64 low QUARTER)) (shiftHigh (sub64 high QUARTER)) (pending + 1)
    else
      some (low, high, pending, [])

/-- One iteration of the encoder's renormalization loop body as a state map
(the identity once the loop would break), for reasoning about the loop
iteration by iteration. -/
def encIter (s : EncSt) : EncSt :=
  if s.high < HALF then
    ⟨shiftLow s.low, shiftHigh s.high, (outputBit false s.pending).2⟩
  else if HALF ≤ s.low then
    ⟨shiftLow (sub64 s.low HALF), shiftHigh (sub64 s.high HALF), (outputBit true s.pending).2⟩
  else if QUARTER ≤ s.low ∧ s.high < THREE_QUARTERS then
    ⟨shiftLow (sub64 s.low QUARTER), shiftHigh (sub64 s.high QUARTER), s.pending + 1⟩
  else s

/-- The encoder's renormalization loop never exits when started at `s`: every
iterate still satisfies the loop condition. -/
def encStuck (s : EncSt) : Prop :=
  ∀ n : Nat, renormActive ((encIter^[n]) s).low ((encIter^[n]) s).high

/-- One iteration of the body of the per-symbol encoding loop: narrow the
interval for symbol `s` and renormalize. -/
def encSym (cum : Nat → Nat) (total fuel : Nat) (st : EncSt) (s : Nat) :
    Option (EncSt × List Bool) :=
  let nh := narrowHigh total (cum (s + 1)) st.low st.high
  let nl := narrowLow total (cum s) st.low st.high
  match encRenorm fuel nl nh st.pending with
  | none => none
  | some (l, h, p, bs) => some (⟨l, h, p⟩, bs)

/-- The interval state at the start of encoding: `low = 0`,
`high = MAX_VALUE`, `pending = 0`. -/
def encInit : EncSt := ⟨0, MAX_VALUE, 0⟩

/-- The `for (uint8_t sym : data)` encoding loop over a list of symbols. -/
def encFold (cum : Nat → Nat) (total fuel : Nat) : List Nat → EncSt → Option (EncSt × List Bool)
  | [], st => some (st, [])
  | s :: rest, st =>
    match encSym cum total fuel st s with
    | none => none
    | some (st2, bs) =>
      match encFold cum total fuel rest st2 with
      | none => none
      | some (st3, bs2) => some (st3, bs ++ bs2)

/-- The interval state after the first `k` symbols of `data` have been
encoded (`none` if a renormalization loop exhausted its fuel). -/
def encReach (cum : Nat → Nat) (total fuel : Nat) (data : List Nat) (k : Nat) : Option EncSt :=
  match encFold cum total fuel (data.take k) encInit with
  | none => none
  | some (st, _) => some st

/-- The finalization step of the encoder: `pending++`, then emit `0` if
`low < QUARTER` and `1` otherwise through `outputBit`. -/
def encFinal (st : EncSt) : List Bool :=
  if st.low < QUARTER then (outputBit false (st.pending + 1)).1
  else (outputBit true (st.pending + 1)).1

/-- All bits passed to `bw.writeBit` during one run of the encoder: the
per-symbol loop followed by finalization. -/
def encodeAllBits (cum : Nat → Nat) (total fuel : Nat) (data : List Nat) : Option (List Bool) :=
  match encFold cum total fuel data encInit with
  | none => none
  | some (st, bs) => some (bs ++ encFinal st)

/-- The renormalization loops run unboundedly in the program; the model give
them this much fuel, and the theorems below show 33 iterations always suffice
whenever the coder is within its precision contract. -/
def RENORM_FUEL : Nat := 64

/-- Failure modes of `compressArithmetic` (each prints a diagnostic and
returns early in the program).  `renormStuck` models the renormalization loop
still spinning after `RENORM_FUEL` iterations — the program itself would
simply never terminate. -/
inductive CompressError where
  | emptyInput
  | badTotal
  | renormStuck
  deriving Repr, DecidableEq

/-- Everything `compressArithmetic` writes to the output file: the header
fields `origSize` (a `uint32_t` cast of `data.size()`), the frequency table,
`encodedBitCount = bw.totalBits()`, and the packed bitstream bytes. -/
structure CompOut where
  origSize : Nat
  freq : Nat → Nat
  encodedBitCount : Nat
  payload : List Nat

/-- `compressArithmetic` on the bytes of the input file.  The empty-input
check precedes everything else (in the program it precedes creation of the
output file, so a failing run writes nothing). -/
def compressArithmetic (data : List Nat) : Except CompressError CompOut :=
  if data.isEmpty then .error .emptyInput
  else
    let freq := freqOf data
    let cum := buildCum freq
    let total := totalOf freq
    if total = 0 then .error .badTotal
    else
      match encodeAllBits cum total RENORM_FUEL data with
      | none => .error .renormStuck
      | some bits =>
        let w := flushFinal (writeBits BitWriter.start bits)
        .ok ⟨data.length % U32, freq, w.totalBits, w.out⟩

/-- State of the `BitReader` class: remaining input bytes, the current byte
`buf_` and the count `bitsLeft_` of its unconsumed bits. -/
structure BitReader where
  rest : List Nat
  buf : Nat
  bitsLeft : Nat
  deriving Repr, DecidableEq

/-- `BitReader::readBit`: refill `buf_` from the next byte when empty
(failing at end of input), then yield bits most significant first —
`bit = (buf >> (bitsLeft - 1)) & 1`, modelled as `buf / 2 ^ (bitsLeft-1) % 2`. -/
def readBit (r : BitReader) : Option (Bool × BitReader) :=
  match r.bitsLeft, r.rest with
  | 0, [] => none
  | 0, c :: cs => some ((c / 2 ^ 7) % 2 == 1, ⟨cs, c, 7⟩)
  | n + 1, _ => some ((r.buf / 2 ^ n) % 2 == 1, ⟨r.rest, r.buf, n⟩)

/-- The bit-budget bookkeeping of the decoder: the reader plus the `bitsRead`
counter checked against `encodedBitCount`. -/
structure DecBits where
  br : BitReader
  bitsRead : Nat
  deriving Repr, DecidableEq

/-- The `readOneBit` lambda: while `bitsRead < encodedBitCount` and the
reader still has data, return the real next bit; otherwise return `0`.
`bitsRead` is incremented on every call. -/
def readOneBit (ebc : Nat) (s : DecBits) : Nat × DecBits :=
  if s.bitsRead < ebc then
    match readBit s.br with
    | some (b, br2) => (if b then 1 else 0, ⟨br2, s.bitsRead + 1⟩)
    | none => (0, ⟨s.br, s.bitsRead + 1⟩)
  else (0, ⟨s.br, s.bitsRead + 1⟩)

/-- The loop `for (i = 0; i < BITS; i++) value = (value << 1) | readOneBit()`
initializing the decoder's `value` register. -/
def initValue (ebc : Nat) : Nat → Nat → DecBits → Nat × DecBits
  | 0, v, s => (v, s)
  | n + 1, v, s =>
    let r := readOneBit ebc s
    initValue ebc n (shiftValue v r.1) r.2

/-- Decoder state: the interval `low`, `high`, the `value` register (all
`uint64_t`) and the bit-input state. -/
structure DecSt where
  low : Nat
  high : Nat
  value : Nat
  bits : DecBits
  deriving Repr, DecidableEq

/-- The decoder's renormalization loop with fuel: identical interval logic to
the encoder, no bits emitted, `value` shifted with one new bit pulled in per
iteration. -/
def decRenorm (ebc : Nat) : Nat → DecSt → Option DecSt
  | 0, _ => none
  | fuel + 1, st =>
    if st.high < HALF then
      let r := readOneBit ebc st.bits
      decRenorm ebc fuel ⟨shiftLow st.low, shiftHigh st.high, shiftValue st.value r.1, r.2⟩
    else if HALF ≤ st.low then
      let r := readOneBit ebc st.bits
      decRenorm ebc fuel
        ⟨shiftLow (sub64 st.low HALF), shiftHigh (sub64 st.high HALF),
          shiftValue (sub64 st.value HALF) r.1, r.2⟩
    else if QUARTER ≤ st.low ∧ st.high < THREE_QUARTERS then
      let r := readOneBit ebc st.bits
      decRenorm ebc fuel
        ⟨shiftLow (sub64 st.low QUARTER), shiftHigh (sub64 st.high QUARTER),
          shiftValue (sub64 st.value QUARTER) r.1, r.2⟩
    else some st

/-- One iteration of the decoder's renormalization loop body as a state map
(the identity once the loop would break). -/
def decIter (ebc : Nat) (st : DecSt) : DecSt :=
  if st.high < HALF then
    let r := readOneBit ebc st.bits
    ⟨shiftLow st.low, shiftHigh st.high, shiftValue st.value r.1, r.2⟩
  else if HALF ≤ st.low then
    let r := readOneBit ebc st.bits
    ⟨shiftLow (sub64 st.low HALF), shiftHigh (sub64 st.high HALF),
      shiftValue (sub64 st.value HALF) r.1, r.2⟩
  else if QUARTER ≤ st.low ∧ st.high < THREE_QUARTERS then
    let r := readOneBit ebc st.bits
    ⟨shiftLow (sub64 st.low QUARTER), shiftHigh (sub64 st.high QUARTER),
      shiftValue (sub64 st.value QUARTER) r.1, r.2⟩
  else st

/-- The decoder's renormalization loop never exits when started at `st`. -/
def decStuck (ebc : Nat) (st : DecSt) : Prop :=
  ∀ n : Nat, renormActive (((decIter ebc)^[n]) st).low (((decIter ebc)^[n]) st).high

/-- The `scaled = ((value - low + 1) * total - 1) / range` computation of the
decoder, in `uint64_t` arithmetic.  (When `range = 0` the program divides by
zero, which is undefined behaviour in C++; the model returns `0` there, and
no theorem below relies on that case.) -/
def scaledOf (total low high value : Nat) : Nat :=
  sub64 (mul64 (add64 (sub64 value low) 1) total) 1 / rangeOf low high

/-- One iteration of the body of the decoding loop: compute `scaled`, look up
the symbol (with the `uint32_t` cast of `scaled`), emit it, narrow and
renormalize. -/
def decStep (cum : Nat → Nat) (total ebc fuel : Nat) (st : DecSt) : Option (Nat × DecSt) :=
  let scaled := scaledOf total st.low st.high st.value
  let sym := findSymbol (scaled % U32) cum
  let nh := narrowHigh total (cum (sym + 1)) st.low st.high
  let nl := narrowLow total (cum sym) st.low st.high
  match decRenorm ebc fuel ⟨nl, nh, st.value, st.bits⟩ with
  | none => none
  | some st2 => some (sym, st2)

/-- The `for (produced = 0; produced < origSize; produced++)` decoding loop,
returning the bytes put to the output file. -/
def decLoop (cum : Nat → Nat) (total ebc fuel : Nat) : Nat → DecSt → Option (List Nat)
  | 0, _ => some []
  | n + 1, st =>
    match decStep cum total ebc fuel st with
    | none => none
    | some (sym, st2) =>
      match decLoop cum total ebc fuel n st2 with
      | none => none
      | some rest => some (sym :: rest)

/-- The decoder state after `n` iterations of the decoding loop. -/
def decReach (cum : Nat → Nat) (total ebc fuel : Nat) : Nat → DecSt → Option DecSt
  | 0, st => some st
  | n + 1, st =>
    match decStep cum total ebc fuel st with
    | none => none
    | some (_, st2) => decReach cum total ebc fuel n st2

/-- Failure modes of `decompressArithmetic`.  `renormStuck` models the
renormalization loop still spinning after `RENORM_FUEL` iterations. -/
inductive DecompressError where
  | badFormat
  | badTotal
  | renormStuck
  deriving Repr, DecidableEq

/-- The decoder state at the start of decoding: `low = 0`,
`high = MAX_VALUE`, `value` filled from the first 32 bits, reading from a
fresh `BitReader` over the payload bytes. -/
def decInit (ebc : Nat) (payload : List Nat) : DecSt :=
  let iv := initValue ebc 32 0 ⟨⟨payload, 0, 0⟩, 0⟩
  ⟨0, MAX_VALUE, iv.1, iv.2⟩

/-- `decompressArithmetic` on the parsed header fields and the payload bytes
of the input file: check the magic, rebuild `cum` and `total`, reject
`total = 0`, initialize `value`, then decode exactly `origSize` bytes. -/
def decompressArithmetic (magic origSize : Nat) (freq : Nat → Nat) (ebc : Nat)
    (payload : List Nat) : Except DecompressError (List Nat) :=
  if magic ≠ MAGIC then .error .badFormat
  else
    let cum := buildCum freq
    let total := totalOf freq
    if total = 0 then .error .badTotal
    else
      match decLoop cum total ebc RENORM_FUEL origSize (decInit ebc payload) with
      | none => .error .renormStuck
      | some out => .ok out

/-- The invariant the specification asserts for the coding interval: ordered
and within the 32-bit working range. -/
def IntervalOk (low high : Nat) : Prop := low ≤ high ∧ high ≤ MAX_VALUE

/-- The interval state immediately after the encoder has narrowed for symbol
`sym`, before renormalization. -/
def encNarrowed (cum : Nat → Nat) (total : Nat) (st : EncSt) (sym : Nat) : EncSt :=
  ⟨narrowLow total (cum sym) st.low st.high,
    narrowHigh total (cum (sym + 1)) st.low st.high, st.pending⟩

/-- The decoder state immediately after one `scaled`/`findSymbol`/narrow
step, before renormalization. -/
def decNarrowed (cum : Nat → Nat) (total : Nat) (st : DecSt) : DecSt :=
  let sym := findSymbol (scaledOf total st.low st.high st.value % U32) cum
  ⟨narrowLow total (cum sym) st.low st.high,
    narrowHigh total (cum (sym + 1)) st.low st.high, st.value, st.bits⟩

/-- An input of `2^32 - 1` bytes (the largest size representable in the
`origSize` header field) on which the encoder's precision contract
`total ≤ QUARTER` is violated: one byte `0`, `2^31 - 2` bytes `1`,
`2^30 + 2` bytes `2` and `2^30 - 2` bytes `3`, ordered so that byte `2` is
encoded first and byte `0` second. -/
def Dstar : List Nat :=
  2 :: 0 :: (List.replicate (2 ^ 31 - 2) 1 ++
    (List.replicate (2 ^ 30 + 1) 2 ++ List.replicate (2 ^ 30 - 2) 3))

/-- Closed form of the frequency table of `Dstar`. -/
def DstarFreq : Nat → Nat := fun b =>
  if b = 0 then 1
  else if b = 1 then 2 ^ 31 - 2
  else if b = 2 then 2 ^ 30 + 2
  else if b = 3 then 2 ^ 30 - 2
  else 0

/-- A frequency table a crafted compressed file can carry: its raw sum
`2^32 + 3` overflows the `uint32_t` cumulative counters, so `buildCum`
wraps (`cum[2] = 3 * 2^30 + 2` but `cum[3] = total = 3`), letting the
decoder's interval escape the 32-bit range and then collapse. -/
def hangFreq : Nat → Nat := fun b =>
  if b = 0 then 2
  else if b = 1 then 3 * 2 ^ 30
  else if b = 2 then 2 ^ 30 + 1
  else 0

/-- A crafted frequency table whose raw sum `2^32 + 1` wraps to
`total = 1` while `cum[1] = 1` and `cum[2] = 0`: two different symbols
satisfy the cumulative sandwich for `scaled = 0`. -/
def wrapFreqA : Nat → Nat := fun b =>
  if b = 0 then 1
  else if b = 1 then 2 ^ 32 - 1
  else if b = 2 then 1
  else 0

/-- A crafted frequency table whose raw sum `2^32 + 1` wraps to `total = 1`
while `cum[1] = 2`: the decoder's very first narrowing pushes `high` to
`2^33 - 1`, outside the 32-bit range. -/
def wrapFreqB : Nat → Nat := fun b =>
  if b = 0 then 2
  else if b = 1 then 2 ^ 32 - 1
  else 0

/-- A small well-formed frequency table (two bytes `0`, three bytes `1`,
`total = 5`) used to instantiate hypotheses of the conditional theorems at a
concrete point. -/
def smallFreq : Nat → Nat := fun b =>
  if b = 0 then 2
  else if b = 1 then 3
  else 0

end ArithCode

namespace ArithCode

/-! ## Numeric values of the constants -/

theorem U32_eq : U32 = 4294967296 := by norm_num [U32]

theorem M64_eq : M64 = 18446744073709551616 := by norm_num [M64]

theorem MAX_VALUE_eq : MAX_VALUE = 4294967295 := by norm_num [MAX_VALUE]

theorem HALF_eq : HALF = 2147483648 := by norm_num [HALF]

theorem QUARTER_eq : QUARTER = 1073741824 := by norm_num [QUARTER]

theorem THREE_QUARTERS_eq : THREE_QUARTERS = 3221225472 := by norm_num [THREE_QUARTERS]

theorem lt_M64_of_le_MAX {x : Nat} (h : x ≤ MAX_VALUE) : x < M64 := by
  rw [MAX_VALUE_eq] at h; rw [M64_eq]; omega

/-! ## The 64-bit operations do not wrap on in-range operands -/

theorem add64_eq {a b : Nat} (h : a + b < M64) : add64 a b = a + b :=
  Nat.mod_eq_of_lt h

theorem sub64_eq {a b : Nat} (hba : b ≤ a) (ha : a < M64) : sub64 a b = a - b := by
  have hb : b < M64 := lt_of_le_of_lt hba ha
  have h1 : a + (M64 - b) = (a - b) + M64 := by omega
  unfold sub64
  rw [h1, Nat.add_mod_right]
  exact Nat.mod_eq_of_lt (by omega)

theorem mul64_eq {a b : Nat} (h : a * b < M64) : mul64 a b = a * b :=
  Nat.mod_eq_of_lt h

theorem shiftLow_eq {l : Nat} (h : 2 * l < M64) : shiftLow l = 2 * l :=
  Nat.mod_eq_of_lt h

theorem shiftHigh_eq {h : Nat} (hh : 2 * h < M64) : shiftHigh h = 2 * h + 1 := by
  unfold shiftHigh
  rw [Nat.mod_eq_of_lt hh]

theorem rangeOf_eq {low high : Nat} (hlh : low ≤ high) (hh : high ≤ MAX_VALUE) :
    rangeOf low high = high - low + 1 := by
  have h1 : high < M64 := lt_M64_of_le_MAX hh
  have h2 : high - low + 1 < M64 := by rw [M64_eq]; rw [MAX_VALUE_eq] at hh; omega
  rw [rangeOf, sub64_eq hlh h1, add64_eq h2]

/-! ## The pending-bit machinery (claim C5) -/

theorem outputBitLoop_eq (b : Bool) (n : Nat) :
    outputBitLoop b n = List.replicate n (!b) := by
  induction n with
  | zero => rfl
  | succ n ih => simp [outputBitLoop, List.replicate_succ, ih]

/-- Claim C5: whenever a determined bit `b` is emitted through `outputBit`,
exactly `pending` copies of `!b` follow it immediately and the pending
counter is reset to `0`; the finalization step increments `pending` once more
and emits the disambiguating bit (`0` iff `low < QUARTER`) through the same
rule, so accumulated pending bits are never dropped. -/
theorem c5_pending_emission (b : Bool) (p : Nat) (st : EncSt) :
    outputBit b p = (b :: List.replicate p (!b), 0) ∧
    encFinal st = (if st.low < QUARTER then false else true)
      :: List.replicate (st.pending + 1) (!(if st.low < QUARTER then false else true)) := by
  constructor
  · simp [outputBit, outputBitLoop_eq]
  · by_cases h : st.low < QUARTER <;>
      simp [encFinal, h, outputBit, outputBitLoop_eq]

/-! ## Empty input (claim C6) -/

/-- Claim C6: compressing a zero-length input fails with the data error
(`"Input is empty."`) and produces no output; in the program the check
precedes creation of the output file, and in the model the error carries no
output value at all. -/
theorem c6_empty_input : compressArithmetic [] = .error .emptyInput := rfl

/-! ## Header bit count (claim C4) -/

theorem writeBit_totalBits (w : BitWriter) (b : Bool) :
    (writeBit w b).totalBits = w.totalBits + 1 := by
  simp only [writeBit, flushByte]
  split <;> rfl

theorem writeBits_totalBits (bs : List Bool) :
    ∀ w : BitWriter, (writeBits w bs).totalBits = w.totalBits + bs.length := by
  induction bs with
  | nil => intro w; rfl
  | cons b bs ih =>
    intro w
    have h1 : writeBits w (b :: bs) = writeBits (writeBit w b) bs := rfl
    rw [h1, ih (writeBit w b), writeBit_totalBits]
    simp
    omega

theorem flushFinal_totalBits (w : BitWriter) : (flushFinal w).totalBits = w.totalBits := by
  unfold flushFinal flushByte
  split <;> rfl

/-- Claim C4: for every input on which the encoder completes, the
`encodedBitCount` written into the header equals exactly the number of bits
passed to the bit writer by the per-symbol loop and the finalization step —
the zero bits `flushFinal` appends to pad the last byte are not counted. -/
theorem c4_encoded_bit_count (data : List Nat) (bits : List Bool) (out : CompOut)
    (hbits : encodeAllBits (buildCum (freqOf data)) (totalOf (freqOf data)) RENORM_FUEL data
      = some bits)
    (hok : compressArithmetic data = .ok out) :
    out.encodedBitCount = bits.length := by
  unfold compressArithmetic at hok
  by_cases he : data.isEmpty
  · simp [he] at hok
  · simp only [he, if_false, Bool.false_eq_true] at hok
    by_cases ht : totalOf (freqOf data) = 0
    · simp [ht] at hok
    · simp only [ht, if_false, hbits] at hok
      cases hok
      simp [flushFinal_totalBits, writeBits_totalBits, BitWriter.start]

set_option maxRecDepth 8000 in
/-- Witness for C4 at the one-byte input `[0]`: the encoder emits the two
bits `01` and stores `encodedBitCount = 2`. -/
theorem c4_witness :
    encodeAllBits (buildCum (freqOf [0])) (totalOf (freqOf [0])) RENORM_FUEL [0]
        = some [false, true] ∧
    compressArithmetic [0] = .ok ⟨1, freqOf [0], 2, [64]⟩ ∧
    (⟨1, freqOf [0], 2, [64]⟩ : CompOut).encodedBitCount = [false, true].length :=
  ⟨rfl, rfl, c4_encoded_bit_count [0] [false, true] ⟨1, freqOf [0], 2, [64]⟩ rfl rfl⟩

end ArithCode

namespace ArithCode

/-! ## The cumulative table and symbol lookup (claim C3) -/

theorem cumRaw_mono (freq : Nat → Nat) : Monotone (cumRaw freq) := by
  apply monotone_nat_of_le_succ
  intro n
  exact Nat.le_add_right _ _

theorem buildCum_eq {freq : Nat → Nat} (hsum : cumRaw freq 256 < U32) {i : Nat}
    (hi : i ≤ 256) : buildCum freq i = cumRaw freq i :=
  Nat.mod_eq_of_lt (lt_of_le_of_lt (cumRaw_mono freq hi) hsum)

theorem buildCum_zero (freq : Nat → Nat) : buildCum freq 0 = 0 := by
  simp [buildCum, cumRaw]

theorem findSymbolGo_spec (scaled : Nat) (cum : Nat → Nat) :
    ∀ fuel s, s + fuel = 256 → (∀ t, t ≤ s → cum t ≤ scaled) → scaled < cum 256 →
      findSymbolGo scaled cum s fuel < 256 ∧
      cum (findSymbolGo scaled cum s fuel) ≤ scaled ∧
      scaled < cum (findSymbolGo scaled cum s fuel + 1) := by
  intro fuel
  induction fuel with
  | zero =>
    intro s hs hle hlt
    exfalso
    have h256 : cum 256 ≤ scaled := hle 256 (by omega)
    omega
  | succ fuel ih =>
    intro s hs hle hlt
    by_cases h : scaled < cum (s + 1)
    · have he : findSymbolGo scaled cum s (fuel + 1) = s := by
        simp [findSymbolGo, h]
      rw [he]
      exact ⟨by omega, hle s le_rfl, h⟩
    · have he : findSymbolGo scaled cum s (fuel + 1) = findSymbolGo scaled cum (s + 1) fuel := by
        simp [findSymbolGo, h]
      rw [he]
      apply ih (s + 1) (by omega) ?_ hlt
      intro t ht
      rcases Nat.lt_or_ge t (s + 1) with h1 | h1
      · exact hle t (by omega)
      · have h2 : t = s + 1 := by omega
        subst h2
        omega

theorem findSymbol_spec (scaled : Nat) (cum : Nat → Nat) (h0 : cum 0 ≤ scaled)
    (hlt : scaled < cum 256) :
    findSymbol scaled cum < 256 ∧ cum (findSymbol scaled cum) ≤ scaled ∧
      scaled < cum (findSymbol scaled cum + 1) := by
  apply findSymbolGo_spec scaled cum 256 0 rfl ?_ hlt
  intro t ht
  have h1 : t = 0 := by omega
  subst h1
  exact h0

theorem findSymbol_unique {freq : Nat → Nat} (hsum : cumRaw freq 256 < U32) {x t : Nat}
    (hx : x < buildCum freq 256) (ht : t < 256)
    (h1 : buildCum freq t ≤ x) (h2 : x < buildCum freq (t + 1)) :
    findSymbol x (buildCum freq) = t := by
  have h0 : buildCum freq 0 ≤ x := by
    rw [buildCum_zero]
    exact Nat.zero_le x
  obtain ⟨hf256, hfl, hfr⟩ := findSymbol_spec x (buildCum freq) h0 hx
  set f := findSymbol x (buildCum freq) with hfdef
  rcases Nat.lt_trichotomy f t with h | h | h
  · exfalso
    have e1 : buildCum freq (f + 1) = cumRaw freq (f + 1) := buildCum_eq hsum (by omega)
    have e2 : buildCum freq t = cumRaw freq t := buildCum_eq hsum (by omega)
    have e3 : cumRaw freq (f + 1) ≤ cumRaw freq t := cumRaw_mono freq (by omega)
    omega
  · exact h
  · exfalso
    have e1 : buildCum freq (t + 1) = cumRaw freq (t + 1) := buildCum_eq hsum (by omega)
    have e2 : buildCum freq f = cumRaw freq f := buildCum_eq hsum (by omega)
    have e3 : cumRaw freq (t + 1) ≤ cumRaw freq f := cumRaw_mono freq (by omega)
    omega

set_option maxRecDepth 8000 in
/-- Counterexample to claim C3 as stated.  For the `uint32_t` frequency table
`wrapFreqA = [1, 2^32 - 1, 1, 0, ...]` the `uint32_t` casts in `buildCum`
wrap: `cum = [0, 1, 0, 1, 1, ...]` and `total = 1 > 0`.  The scaled value `0`
lies in `[0, total)` and satisfies `cum[s] ≤ 0 < cum[s+1]` for BOTH `s = 0`
and `s = 2`, so the matching symbol is not unique; and symbol `2` has nonzero
frequency yet `findSymbol(cum[2]) = 0 ≠ 2`, so the lower-boundary property
also fails. -/
theorem c3_counterexample :
    0 < totalOf wrapFreqA ∧
    wrapFreqA 2 ≠ 0 ∧
    (buildCum wrapFreqA 0 ≤ 0 ∧ 0 < buildCum wrapFreqA 1) ∧
    (buildCum wrapFreqA 2 ≤ 0 ∧ 0 < buildCum wrapFreqA 3) ∧
    findSymbol (buildCum wrapFreqA 2) (buildCum wrapFreqA) ≠ 2 := by
  refine ⟨by decide, by decide, ⟨by decide, by decide⟩, ⟨by decide, by decide⟩, by decide⟩

/-- Claim C3, amended: provided the raw sum of the frequency table fits in
32 bits (so the `uint32_t` cumulative counters do not wrap — true for every
table the encoder itself builds from at most `2^32 - 1` input bytes), every
`scaled` in `[0, total)` is mapped by `findSymbol` to a symbol `s < 256` with
`cum[s] ≤ scaled < cum[s+1]`, that symbol is unique (any `t` satisfying the
sandwich is `findSymbol scaled`), and `findSymbol(cum[s]) = s` for every
`s` with nonzero frequency. -/
theorem c3_find_symbol (freq : Nat → Nat) (x s t : Nat)
    (hsum : cumRaw freq 256 < U32) (hx : x < totalOf freq)
    (hs : s < 256) (hf : freq s ≠ 0)
    (ht : t < 256) (h1 : buildCum freq t ≤ x) (h2 : x < buildCum freq (t + 1)) :
    (findSymbol x (buildCum freq) < 256 ∧
      buildCum freq (findSymbol x (buildCum freq)) ≤ x ∧
      x < buildCum freq (findSymbol x (buildCum freq) + 1)) ∧
    findSymbol x (buildCum freq) = t ∧
    findSymbol (buildCum freq s) (buildCum freq) = s := by
  have hx' : x < buildCum freq 256 := hx
  have h0 : buildCum freq 0 ≤ x := by
    rw [buildCum_zero]; exact Nat.zero_le x
  refine ⟨findSymbol_spec x (buildCum freq) h0 hx', findSymbol_unique hsum hx' ht h1 h2, ?_⟩
  have e1 : buildCum freq s = cumRaw freq s := buildCum_eq hsum (by omega)
  have e2 : buildCum freq (s + 1) = cumRaw freq (s + 1) := buildCum_eq hsum (by omega)
  have e3 : buildCum freq 256 = cumRaw freq 256 := buildCum_eq hsum (by omega)
  have hstep : cumRaw freq (s + 1) = cumRaw freq s + freq s := rfl
  have hmono : cumRaw freq (s + 1) ≤ cumRaw freq 256 := cumRaw_mono freq (by omega)
  apply findSymbol_unique hsum (by omega) hs (by omega) (by omega)

set_option maxRecDepth 8000 in
/-- Witness for the amended C3 at the table `smallFreq` (`cum = [0,2,5]`,
`total = 5`), scaled value `3` and symbol `1`. -/
theorem c3_witness :
    (findSymbol 3 (buildCum smallFreq) < 256 ∧
      buildCum smallFreq (findSymbol 3 (buildCum smallFreq)) ≤ 3 ∧
      3 < buildCum smallFreq (findSymbol 3 (buildCum smallFreq) + 1)) ∧
    findSymbol 3 (buildCum smallFreq) = 1 ∧
    findSymbol (buildCum smallFreq 1) (buildCum smallFreq) = 1 :=
  c3_find_symbol smallFreq 3 1 1 (by decide) (by decide) (by decide) (by decide)
    (by decide) (by decide) (by decide)

end ArithCode

namespace ArithCode

/-! ## Narrowing arithmetic (shared by claims C2, C7, C8, C9, C10) -/

theorem narrowLow_eq {total cl low high : Nat} (hlh : low ≤ high) (hh : high ≤ MAX_VALUE)
    (htot : 0 < total) (htU : total < U32) (hcl : cl ≤ total) :
    narrowLow total cl low high = low + (high - low + 1) * cl / total := by
  have hr := rangeOf_eq hlh hh
  have hrle : high - low + 1 ≤ U32 := by
    rw [U32_eq]; rw [MAX_VALUE_eq] at hh; omega
  have hmul : (high - low + 1) * cl < M64 := by
    have h1 : (high - low + 1) * cl ≤ U32 * total := by
      apply Nat.mul_le_mul hrle (le_refl cl) |>.trans
      exact Nat.mul_le_mul_left _ hcl
    have h2 : U32 * total ≤ U32 * (U32 - 1) := Nat.mul_le_mul_left _ (by omega)
    rw [M64_eq]; rw [U32_eq] at h1 h2; omega
  have hdivle : (high - low + 1) * cl / total ≤ high - low + 1 := by
    have h1 : (high - low + 1) * cl ≤ (high - low + 1) * total := Nat.mul_le_mul_left _ hcl
    calc (high - low + 1) * cl / total ≤ (high - low + 1) * total / total :=
          Nat.div_le_div_right h1
      _ = high - low + 1 := Nat.mul_div_cancel _ htot
  have hadd : low + (high - low + 1) * cl / total < M64 := by
    rw [M64_eq]; rw [MAX_VALUE_eq] at hh; omega
  rw [narrowLow, hr, mul64_eq hmul, add64_eq hadd]

theorem narrowHigh_eq {total ch low high : Nat} (hlh : low ≤ high) (hh : high ≤ MAX_VALUE)
    (htot : 0 < total) (htU : total < U32) (hch : ch ≤ total)
    (hpos : total ≤ (high - low + 1) * ch) :
    narrowHigh total ch low high = low + (high - low + 1) * ch / total - 1 := by
  have hr := rangeOf_eq hlh hh
  have hrle : high - low + 1 ≤ U32 := by
    rw [U32_eq]; rw [MAX_VALUE_eq] at hh; omega
  have hmul : (high - low + 1) * ch < M64 := by
    have h1 : (high - low + 1) * ch ≤ U32 * total := by
      apply Nat.mul_le_mul hrle (le_refl ch) |>.trans
      exact Nat.mul_le_mul_left _ hch
    have h2 : U32 * total ≤ U32 * (U32 - 1) := Nat.mul_le_mul_left _ (by omega)
    rw [M64_eq]; rw [U32_eq] at h1 h2; omega
  have hdivle : (high - low + 1) * ch / total ≤ high - low + 1 := by
    have h1 : (high - low + 1) * ch ≤ (high - low + 1) * total := Nat.mul_le_mul_left _ hch
    calc (high - low + 1) * ch / total ≤ (high - low + 1) * total / total :=
          Nat.div_le_div_right h1
      _ = high - low + 1 := Nat.mul_div_cancel _ htot
  have hdivpos : 1 ≤ (high - low + 1) * ch / total := by
    rw [Nat.le_div_iff_mul_le htot]
    omega
  have hadd : low + (high - low + 1) * ch / total < M64 := by
    rw [M64_eq]; rw [MAX_VALUE_eq] at hh; omega
  rw [narrowHigh, hr, mul64_eq hmul, add64_eq hadd, sub64_eq (by omega) hadd]

/-- The key narrowing bounds for the encoder: with `cl < ch ≤ total` (the
coded symbol has nonzero frequency) and `total ≤ range` (the precision
contract), the narrowed interval is nonempty and contained in the old one. -/
theorem narrow_encoder {total cl ch low high : Nat} (hlh : low ≤ high)
    (hh : high ≤ MAX_VALUE) (htot : 0 < total) (htU : total < U32) (hclch : cl < ch)
    (hch : ch ≤ total) (htr : total ≤ high - low + 1) :
    narrowLow total cl low high ≤ narrowHigh total ch low high ∧
    narrowHigh total ch low high ≤ high ∧
    low ≤ narrowLow total cl low high := by
  have hcl : cl ≤ total := by omega
  have hpos : total ≤ (high - low + 1) * ch := by
    have h1 : 1 ≤ ch := by omega
    have h2 : total * 1 ≤ (high - low + 1) * ch := Nat.mul_le_mul htr h1
    omega
  have hL := narrowLow_eq hlh hh htot htU hcl
  have hH := narrowHigh_eq hlh hh htot htU hch hpos
  have hstep : (high - low + 1) * cl / total + 1 ≤ (high - low + 1) * ch / total := by
    have h1 : (high - low + 1) * cl + total ≤ (high - low + 1) * ch := by
      have h2 : (high - low + 1) * (cl + 1) ≤ (high - low + 1) * ch :=
        Nat.mul_le_mul_left _ (by omega)
      have h3 : (high - low + 1) * (cl + 1) = (high - low + 1) * cl + (high - low + 1) :=
        by ring
      omega
    calc (high - low + 1) * cl / total + 1 = ((high - low + 1) * cl + total) / total := by
          rw [Nat.add_div_right _ htot]
      _ ≤ (high - low + 1) * ch / total := Nat.div_le_div_right h1
  have hBle : (high - low + 1) * ch / total ≤ high - low + 1 := by
    have h1 : (high - low + 1) * ch ≤ (high - low + 1) * total := Nat.mul_le_mul_left _ hch
    calc (high - low + 1) * ch / total ≤ (high - low + 1) * total / total :=
          Nat.div_le_div_right h1
      _ = high - low + 1 := Nat.mul_div_cancel _ htot
  rw [hL, hH]
  revert hstep hBle
  generalize (high - low + 1) * cl / total = A
  generalize (high - low + 1) * ch / total = B
  intro hstep hBle
  refine ⟨by omega, by omega, by omega⟩

/-- At loop exit (no renormalization condition holds) the interval width
exceeds `QUARTER`. -/
theorem range_of_exit {l h : Nat} (hlh : l ≤ h) (hact : ¬ renormActive l h) :
    QUARTER < h - l + 1 := by
  unfold renormActive at hact
  push_neg at hact
  obtain ⟨h1, h2, h3⟩ := hact
  rw [HALF_eq] at h1 h2
  rw [QUARTER_eq] at h3 ⊢
  rw [THREE_QUARTERS_eq] at h3
  omega

/-! ## The encoder renormalization loop: invariants and termination -/

theorem encRenorm_spec : ∀ (fuel low high pending : Nat),
    low ≤ high → high ≤ MAX_VALUE → U32 < 2 ^ fuel * (high - low + 1) →
    ∃ l h p bs, encRenorm fuel low high pending = some (l, h, p, bs) ∧
      l ≤ h ∧ h ≤ MAX_VALUE ∧ ¬ renormActive l h := by
  intro fuel
  induction fuel with
  | zero =>
    intro low high pending hlh hh hpow
    exfalso
    rw [U32_eq] at hpow
    rw [MAX_VALUE_eq] at hh
    simp only [pow_zero, one_mul] at hpow
    omega
  | succ fuel ih =>
    intro low high pending hlh hh hpow
    have hpow2 : ∀ a b : Nat, a - b + 1 = 2 * (high - low + 1) →
        U32 < 2 ^ fuel * (a - b + 1) := by
      intro a b hab
      rw [hab]
      calc U32 < 2 ^ (fuel + 1) * (high - low + 1) := hpow
        _ = 2 ^ fuel * (2 * (high - low + 1)) := by ring
    by_cases h1 : high < HALF
    · have e1 : shiftLow low = 2 * low := shiftLow_eq (by
        rw [M64_eq]; rw [HALF_eq] at h1; omega)
      have e2 : shiftHigh high = 2 * high + 1 := shiftHigh_eq (by
        rw [M64_eq]; rw [HALF_eq] at h1; omega)
      obtain ⟨l, h, p, bs, heq, hi1, hi2, hi3⟩ :=
        ih (shiftLow low) (shiftHigh high) (outputBit false pending).2
          (by rw [e1, e2]; omega)
          (by rw [e2, MAX_VALUE_eq]; rw [HALF_eq] at h1; omega)
          (by rw [e1, e2]; exact hpow2 _ _ (by omega))
      refine ⟨l, h, p, (outputBit false pending).1 ++ bs, ?_, hi1, hi2, hi3⟩
      simp only [encRenorm, h1, if_true, heq]
    · by_cases h2 : HALF ≤ low
      · have hhH : HALF ≤ high := le_trans h2 hlh
        have hlM : low < M64 := lt_M64_of_le_MAX (le_trans hlh hh)
        have hhM : high < M64 := lt_M64_of_le_MAX hh
        have e1 : sub64 low HALF = low - HALF := sub64_eq h2 hlM
        have e2 : sub64 high HALF = high - HALF := sub64_eq hhH hhM
        have e3 : shiftLow (sub64 low HALF) = 2 * (low - HALF) := by
          rw [e1]; exact shiftLow_eq (by
            rw [M64_eq]; rw [MAX_VALUE_eq] at hh; omega)
        have e4 : shiftHigh (sub64 high HALF) = 2 * (high - HALF) + 1 := by
          rw [e2]; exact shiftHigh_eq (by
            rw [M64_eq]; rw [MAX_VALUE_eq] at hh; omega)
        obtain ⟨l, h, p, bs, heq, hi1, hi2, hi3⟩ :=
          ih (shiftLow (sub64 low HALF)) (shiftHigh (sub64 high HALF))
            (outputBit true pending).2
            (by rw [e3, e4]; omega)
            (by rw [e4, MAX_VALUE_eq, HALF_eq]; rw [MAX_VALUE_eq] at hh; omega)
            (by rw [e3, e4]; apply hpow2; rw [HALF_eq] at h2 ⊢; omega)
        refine ⟨l, h, p, (outputBit true pending).1 ++ bs, ?_, hi1, hi2, hi3⟩
        simp only [encRenorm, h1, if_false, h2, if_true, heq]
      · by_cases h3 : QUARTER ≤ low ∧ high < THREE_QUARTERS
        · have hlM : low < M64 := lt_M64_of_le_MAX (le_trans hlh hh)
          have hhM : high < M64 := lt_M64_of_le_MAX hh
          have hQh : QUARTER ≤ high := le_trans h3.1 hlh
          have e1 : sub64 low QUARTER = low - QUARTER := sub64_eq h3.1 hlM
          have e2 : sub64 high QUARTER = high - QUARTER := sub64_eq hQh hhM
          have e3 : shiftLow (sub64 low QUARTER) = 2 * (low - QUARTER) := by
            rw [e1]; exact shiftLow_eq (by
              rw [M64_eq]; rw [MAX_VALUE_eq] at hh; omega)
          have e4 : shiftHigh (sub64 high QUARTER) = 2 * (high - QUARTER) + 1 := by
            rw [e2]; exact shiftHigh_eq (by
              rw [M64_eq]; rw [MAX_VALUE_eq] at hh; omega)
          obtain ⟨l, h, p, bs, heq, hi1, hi2, hi3⟩ :=
            ih (shiftLow (sub64 low QUARTER)) (shiftHigh (sub64 high QUARTER)) (pending + 1)
              (by rw [e3, e4]; omega)
              (by rw [e4, MAX_VALUE_eq, QUARTER_eq]
                  rw [THREE_QUARTERS_eq] at h3
                  obtain ⟨h3a, h3b⟩ := h3
                  omega)
              (by rw [e3, e4]; apply hpow2
                  obtain ⟨h3a, h3b⟩ := h3
                  rw [QUARTER_eq] at h3a ⊢
                  omega)
          refine ⟨l, h, p, bs, ?_, hi1, hi2, hi3⟩
          simp only [encRenorm, h1, if_false, h2, h3, if_true, and_self, heq]
        · refine ⟨low, high, pending, [], ?_, hlh, hh, ?_⟩
          · simp only [encRenorm, h1, if_false, h2, h3]
          · unfold renormActive
            push_neg
            refine ⟨by omega, by omega, fun hq => ?_⟩
            have hb : ¬ high < THREE_QUARTERS := fun hb => h3 ⟨hq, hb⟩
            exact Nat.le_of_not_lt hb

end ArithCode

namespace ArithCode

/-! ## Encoder renormalization: fuel 33 always suffices inside the contract -/

theorem encRenorm_terminates {fuel low high pending : Nat} (hf : 33 ≤ fuel)
    (hlh : low ≤ high) (hh : high ≤ MAX_VALUE) :
    ∃ l h p bs, encRenorm fuel low high pending = some (l, h, p, bs) ∧
      l ≤ h ∧ h ≤ MAX_VALUE ∧ ¬ renormActive l h := by
  apply encRenorm_spec fuel low high pending hlh hh
  have h1 : (2 : Nat) ^ 33 ≤ 2 ^ fuel := Nat.pow_le_pow_right (by norm_num) hf
  have h2 : 1 ≤ high - low + 1 := by omega
  have h3 : 2 ^ 33 * 1 ≤ 2 ^ fuel * (high - low + 1) := Nat.mul_le_mul h1 h2
  calc U32 = 4294967296 := U32_eq
    _ < 2 ^ 33 * 1 := by norm_num
    _ ≤ 2 ^ fuel * (high - low + 1) := h3

theorem encSym_spec {cum : Nat → Nat} {total fuel : Nat} {st : EncSt} {s : Nat}
    (hf : 33 ≤ fuel) (hlh : st.low ≤ st.high) (hh : st.high ≤ MAX_VALUE)
    (hact : ¬ renormActive st.low st.high)
    (htot : 0 < total) (htU : total < U32) (htQ : total ≤ QUARTER)
    (hclch : cum s < cum (s + 1)) (hch : cum (s + 1) ≤ total) :
    ∃ st2 bs, encSym cum total fuel st s = some (st2, bs) ∧
      st2.low ≤ st2.high ∧ st2.high ≤ MAX_VALUE ∧ ¬ renormActive st2.low st2.high := by
  have hrange : QUARTER < st.high - st.low + 1 := range_of_exit hlh hact
  have htr : total ≤ st.high - st.low + 1 := le_trans htQ (le_of_lt hrange)
  obtain ⟨hnlnh, hnh, hlnl⟩ := narrow_encoder hlh hh htot htU hclch hch htr
  obtain ⟨l, h, p, bs, heq, hi1, hi2, hi3⟩ :=
    @encRenorm_terminates fuel _ _ st.pending hf hnlnh (le_trans hnh hh)
  refine ⟨⟨l, h, p⟩, bs, ?_, hi1, hi2, hi3⟩
  simp only [encSym, heq]

theorem encFold_spec {cum : Nat → Nat} {total fuel : Nat}
    (hf : 33 ≤ fuel) (htot : 0 < total) (htU : total < U32) (htQ : total ≤ QUARTER) :
    ∀ (l : List Nat) (st : EncSt),
      st.low ≤ st.high → st.high ≤ MAX_VALUE → ¬ renormActive st.low st.high →
      (∀ b ∈ l, cum b < cum (b + 1) ∧ cum (b + 1) ≤ total) →
      ∃ st2 bs, encFold cum total fuel l st = some (st2, bs) ∧
        st2.low ≤ st2.high ∧ st2.high ≤ MAX_VALUE ∧ ¬ renormActive st2.low st2.high := by
  intro l
  induction l with
  | nil => intro st h1 h2 h3 _; exact ⟨st, [], rfl, h1, h2, h3⟩
  | cons b rest ih =>
    intro st h1 h2 h3 hmem
    obtain ⟨st2, bs, heq, hi1, hi2, hi3⟩ :=
      encSym_spec hf h1 h2 h3 htot htU htQ
        (hmem b (by simp)).1 (hmem b (by simp)).2
    obtain ⟨st3, bs2, heq2, hj⟩ := ih st2 hi1 hi2 hi3 (fun x hx => hmem x (by simp [hx]))
    refine ⟨st3, bs ++ bs2, ?_, hj⟩
    simp only [encFold, heq, heq2]

/-! ## Iteration-level invariants of the renormalization loop body -/

theorem encIter_inv {st : EncSt} (h1 : st.low ≤ st.high) (h2 : st.high ≤ MAX_VALUE) :
    (encIter st).low ≤ (encIter st).high ∧ (encIter st).high ≤ MAX_VALUE := by
  unfold encIter
  by_cases hA : st.high < HALF
  · have e1 : shiftLow st.low = 2 * st.low := shiftLow_eq (by
      rw [M64_eq]; rw [HALF_eq] at hA; omega)
    have e2 : shiftHigh st.high = 2 * st.high + 1 := shiftHigh_eq (by
      rw [M64_eq]; rw [HALF_eq] at hA; omega)
    simp only [hA, if_true]
    rw [MAX_VALUE_eq]
    rw [HALF_eq] at hA
    simp only [e1, e2]
    omega
  · by_cases hB : HALF ≤ st.low
    · have hhH : HALF ≤ st.high := le_trans hB h1
      have hlM : st.low < M64 := lt_M64_of_le_MAX (le_trans h1 h2)
      have hhM : st.high < M64 := lt_M64_of_le_MAX h2
      have e1 : shiftLow (sub64 st.low HALF) = 2 * (st.low - HALF) := by
        rw [sub64_eq hB hlM]
        exact shiftLow_eq (by rw [M64_eq]; rw [MAX_VALUE_eq] at h2; omega)
      have e2 : shiftHigh (sub64 st.high HALF) = 2 * (st.high - HALF) + 1 := by
        rw [sub64_eq hhH hhM]
        exact shiftHigh_eq (by rw [M64_eq]; rw [MAX_VALUE_eq] at h2; omega)
      simp only [hA, if_false, hB, if_true]
      rw [MAX_VALUE_eq] at h2 ⊢
      rw [HALF_eq] at hB
      simp only [e1, e2]
      rw [HALF_eq]
      omega
    · by_cases hC : QUARTER ≤ st.low ∧ st.high < THREE_QUARTERS
      · have hQh : QUARTER ≤ st.high := le_trans hC.1 h1
        have hlM : st.low < M64 := lt_M64_of_le_MAX (le_trans h1 h2)
        have hhM : st.high < M64 := lt_M64_of_le_MAX h2
        have e1 : shiftLow (sub64 st.low QUARTER) = 2 * (st.low - QUARTER) := by
          rw [sub64_eq hC.1 hlM]
          exact shiftLow_eq (by rw [M64_eq]; rw [MAX_VALUE_eq] at h2; omega)
        have e2 : shiftHigh (sub64 st.high QUARTER) = 2 * (st.high - QUARTER) + 1 := by
          rw [sub64_eq hQh hhM]
          exact shiftHigh_eq (by rw [M64_eq]; rw [MAX_VALUE_eq] at h2; omega)
        simp only [hA, if_false, hB, hC, if_true, and_self, e1, e2]
        obtain ⟨hC1, hC2⟩ := hC
        rw [MAX_VALUE_eq]
        rw [QUARTER_eq] at hC1 ⊢
        rw [THREE_QUARTERS_eq] at hC2
        omega
      · simp only [hA, if_false, hB, hC]
        exact ⟨h1, h2⟩

theorem encIter_iterate_inv {st : EncSt} (h1 : st.low ≤ st.high)
    (h2 : st.high ≤ MAX_VALUE) (n : Nat) :
    ((encIter^[n]) st).low ≤ ((encIter^[n]) st).high ∧
      ((encIter^[n]) st).high ≤ MAX_VALUE := by
  induction n with
  | zero => exact ⟨h1, h2⟩
  | succ n ih =>
    rw [Function.iterate_succ_apply']
    exact encIter_inv ih.1 ih.2

/-! ## Frequency tables built from input data -/

theorem cumRaw_add (f g : Nat → Nat) (n : Nat) :
    cumRaw (fun i => f i + g i) n = cumRaw f n + cumRaw g n := by
  induction n with
  | zero => rfl
  | succ n ih => simp only [cumRaw, ih]; omega

theorem cumRaw_zero_fun (n : Nat) : cumRaw (fun _ : Nat => 0) n = 0 := by
  induction n with
  | zero => rfl
  | succ n ih => simp [cumRaw, ih]

theorem cumRaw_indicator (a : Nat) (n : Nat) :
    cumRaw (fun i => if a == i then 1 else 0) n = if a < n then 1 else 0 := by
  induction n with
  | zero => simp [cumRaw]
  | succ n ih =>
    simp only [cumRaw, ih]
    simp only [beq_iff_eq]
    split_ifs <;> omega

theorem cumRaw_count_le (l : List Nat) (n : Nat) :
    cumRaw (fun b => l.count b) n ≤ l.length := by
  induction l with
  | nil =>
    have h0 : cumRaw (fun b => List.count b ([] : List Nat)) n = cumRaw (fun _ => 0) n := by
      simp [List.count_nil]
    simp [h0, cumRaw_zero_fun]
  | cons a l ih =>
    have hfx : (fun b => List.count b (a :: l))
        = fun b => List.count b l + (if a == b then 1 else 0) := by
      funext b
      rw [List.count_cons]
    rw [hfx, cumRaw_add, cumRaw_indicator]
    simp only [List.length_cons]
    split_ifs <;> omega

theorem cumRaw_count_eq (l : List Nat) (hB : ∀ b ∈ l, b < 256) :
    cumRaw (fun b => l.count b) 256 = l.length := by
  induction l with
  | nil =>
    have h0 : cumRaw (fun b => List.count b ([] : List Nat)) 256 = cumRaw (fun _ => 0) 256 := by
      simp [List.count_nil]
    simp [h0, cumRaw_zero_fun]
  | cons a l ih =>
    have hfx : (fun b => List.count b (a :: l))
        = fun b => List.count b l + (if a == b then 1 else 0) := by
      funext b
      rw [List.count_cons]
    rw [hfx, cumRaw_add, cumRaw_indicator, ih (fun b hb => hB b (by simp [hb]))]
    have ha : a < 256 := hB a (by simp)
    simp [ha]

theorem freqOf_eq_count {D : List Nat} (hlen : D.length < U32) :
    freqOf D = fun b => D.count b := by
  funext b
  exact Nat.mod_eq_of_lt (lt_of_le_of_lt (List.count_le_length b D) hlen)

theorem totalOf_freqOf {D : List Nat} (hlen : D.length < U32) (hB : ∀ b ∈ D, b < 256) :
    totalOf (freqOf D) = D.length := by
  rw [totalOf, buildCum, freqOf_eq_count hlen, cumRaw_count_eq D hB]
  exact Nat.mod_eq_of_lt hlen

theorem cumRaw_freqOf_lt {D : List Nat} (hlen : D.length < U32) (hB : ∀ b ∈ D, b < 256) :
    cumRaw (freqOf D) 256 < U32 := by
  rw [freqOf_eq_count hlen, cumRaw_count_eq D hB]
  exact hlen

theorem encoder_cum_bounds {D : List Nat} (hlen : D.length < U32) (hB : ∀ b ∈ D, b < 256)
    {b : Nat} (hb : b ∈ D) :
    buildCum (freqOf D) b < buildCum (freqOf D) (b + 1) ∧
      buildCum (freqOf D) (b + 1) ≤ totalOf (freqOf D) := by
  have hsum := cumRaw_freqOf_lt hlen hB
  have hb256 : b < 256 := hB b hb
  have e1 : buildCum (freqOf D) b = cumRaw (freqOf D) b := buildCum_eq hsum (by omega)
  have e2 : buildCum (freqOf D) (b + 1) = cumRaw (freqOf D) (b + 1) := buildCum_eq hsum (by omega)
  have e3 : totalOf (freqOf D) = cumRaw (freqOf D) 256 := buildCum_eq hsum (by omega)
  have hstep : cumRaw (freqOf D) (b + 1) = cumRaw (freqOf D) b + freqOf D b := rfl
  have hpos : 0 < freqOf D b := by
    rw [freqOf_eq_count hlen]
    exact List.count_pos_iff.mpr hb
  have hmono : cumRaw (freqOf D) (b + 1) ≤ cumRaw (freqOf D) 256 := cumRaw_mono _ (by omega)
  refine ⟨by omega, by omega⟩

theorem encReach_inv {D : List Nat} (hB : ∀ b ∈ D, b < 256) (hQ : D.length ≤ QUARTER)
    (hne : D ≠ []) (k : Nat) :
    ∃ s, encReach (buildCum (freqOf D)) (totalOf (freqOf D)) RENORM_FUEL D k = some s ∧
      s.low ≤ s.high ∧ s.high ≤ MAX_VALUE ∧ ¬ renormActive s.low s.high := by
  have hlen : D.length < U32 := by
    rw [QUARTER_eq] at hQ; rw [U32_eq]; omega
  have htoteq : totalOf (freqOf D) = D.length := totalOf_freqOf hlen hB
  have hlpos : 0 < D.length := List.length_pos.mpr hne
  obtain ⟨st2, bs, heq, hj⟩ :=
    @encFold_spec (buildCum (freqOf D)) (totalOf (freqOf D)) RENORM_FUEL
      (by norm_num [RENORM_FUEL]) (by omega) (by rw [htoteq]; exact hlen)
      (by omega) (D.take k) encInit
      (by simp [encInit]) (by simp [encInit]) (by decide)
      (fun b hb => encoder_cum_bounds hlen hB (List.take_subset k D hb))
  refine ⟨st2, ?_, hj⟩
  simp only [encReach, heq]

end ArithCode

namespace ArithCode

/-! ## Decoder step arithmetic (claims C2, C7, C9) -/

theorem totalOf_lt_U32 (freq : Nat → Nat) : totalOf freq < U32 :=
  Nat.mod_lt _ (by norm_num [U32])

theorem mul_pred_div_self {r t : Nat} (hr : 0 < r) (ht : 0 < t) :
    (r * t - 1) / r = t - 1 := by
  have h2 : r * t = r * (t - 1) + r := by
    have h3 : t = (t - 1) + 1 := by omega
    calc r * t = r * ((t - 1) + 1) := by rw [← h3]
      _ = r * (t - 1) + r := by ring
  have h1 : r * t - 1 = (r - 1) + r * (t - 1) := by omega
  rw [h1, Nat.add_mul_div_left _ _ hr, Nat.div_eq_of_lt (by omega)]
  omega

theorem scaledOf_eq {total low high value : Nat} (htU : total < U32) (htot : 0 < total)
    (hlv : low ≤ value) (hvh : value ≤ high) (hh : high ≤ MAX_VALUE) :
    scaledOf total low high value
      = ((value - low + 1) * total - 1) / (high - low + 1) := by
  have hvM : value < M64 := lt_M64_of_le_MAX (le_trans hvh hh)
  have e1 : sub64 value low = value - low := sub64_eq hlv hvM
  have e2 : add64 (value - low) 1 = value - low + 1 := add64_eq (by
    rw [M64_eq]; rw [MAX_VALUE_eq] at hh; omega)
  have hkU : value - low + 1 ≤ U32 := by
    rw [U32_eq]; rw [MAX_VALUE_eq] at hh; omega
  have hprod : (value - low + 1) * total < M64 := by
    have h1 : (value - low + 1) * total ≤ U32 * (U32 - 1) :=
      Nat.mul_le_mul hkU (by omega)
    rw [M64_eq]; rw [U32_eq] at h1; omega
  have e3 : mul64 (value - low + 1) total = (value - low + 1) * total := mul64_eq hprod
  have hppos : 0 < (value - low + 1) * total := Nat.mul_pos (by omega) htot
  have e4 : sub64 ((value - low + 1) * total) 1 = (value - low + 1) * total - 1 :=
    sub64_eq (by omega) hprod
  rw [scaledOf, e1, e2, e3, e4, rangeOf_eq (le_trans hlv hvh) hh]

set_option maxRecDepth 8000 in
theorem decoder_step_bounds {freq : Nat → Nat} {low high value : Nat}
    (hsum : cumRaw freq 256 < U32) (htot : 0 < totalOf freq)
    (hlv : low ≤ value) (hvh : value ≤ high) (hh : high ≤ MAX_VALUE) :
    scaledOf (totalOf freq) low high value < totalOf freq ∧
    scaledOf (totalOf freq) low high value % U32 = scaledOf (totalOf freq) low high value ∧
    findSymbol (scaledOf (totalOf freq) low high value % U32) (buildCum freq) < 256 ∧
    narrowLow (totalOf freq)
      (buildCum freq (findSymbol (scaledOf (totalOf freq) low high value % U32)
        (buildCum freq))) low high ≤ value ∧
    value ≤ narrowHigh (totalOf freq)
      (buildCum freq (findSymbol (scaledOf (totalOf freq) low high value % U32)
        (buildCum freq) + 1)) low high ∧
    narrowHigh (totalOf freq)
      (buildCum freq (findSymbol (scaledOf (totalOf freq) low high value % U32)
        (buildCum freq) + 1)) low high ≤ high := by
  have htU : totalOf freq < U32 := totalOf_lt_U32 freq
  have hlh : low ≤ high := le_trans hlv hvh
  have hr0 : 0 < high - low + 1 := by omega
  have hse := scaledOf_eq htU htot hlv hvh hh
  have hk1 : 1 ≤ value - low + 1 := by omega
  have hkr : value - low + 1 ≤ high - low + 1 := by omega
  have hnum : (value - low + 1) * totalOf freq - 1
      ≤ (high - low + 1) * totalOf freq - 1 := by
    have h1 := Nat.mul_le_mul_right (totalOf freq) hkr
    omega
  have hslt : scaledOf (totalOf freq) low high value < totalOf freq := by
    rw [hse]
    calc ((value - low + 1) * totalOf freq - 1) / (high - low + 1)
        ≤ ((high - low + 1) * totalOf freq - 1) / (high - low + 1) :=
          Nat.div_le_div_right hnum
      _ = totalOf freq - 1 := mul_pred_div_self hr0 htot
      _ < totalOf freq := by omega
  have hmod : scaledOf (totalOf freq) low high value % U32
      = scaledOf (totalOf freq) low high value :=
    Nat.mod_eq_of_lt (lt_trans hslt htU)
  rw [hmod]
  refine ⟨hslt, rfl, ?_⟩
  have hcum0 : buildCum freq 0 ≤ scaledOf (totalOf freq) low high value := by
    rw [buildCum_zero]; exact Nat.zero_le _
  have hcum256 : scaledOf (totalOf freq) low high value < buildCum freq 256 := hslt
  obtain ⟨hsym256, hcl, hch⟩ :=
    findSymbol_spec (scaledOf (totalOf freq) low high value) (buildCum freq) hcum0 hcum256
  have hchle : buildCum freq (findSymbol (scaledOf (totalOf freq) low high value)
      (buildCum freq) + 1) ≤ totalOf freq := by
    have hs1 : findSymbol (scaledOf (totalOf freq) low high value) (buildCum freq) + 1
        ≤ 256 := by omega
    have e2 : totalOf freq = cumRaw freq 256 := buildCum_eq hsum le_rfl
    calc buildCum freq (findSymbol (scaledOf (totalOf freq) low high value)
          (buildCum freq) + 1)
        = cumRaw freq (findSymbol (scaledOf (totalOf freq) low high value)
            (buildCum freq) + 1) := buildCum_eq hsum hs1
      _ ≤ cumRaw freq 256 := cumRaw_mono freq hs1
      _ = totalOf freq := e2.symm
  have hclle : buildCum freq (findSymbol (scaledOf (totalOf freq) low high value)
      (buildCum freq)) ≤ totalOf freq := by omega
  have hdm := Nat.div_add_mod ((value - low + 1) * totalOf freq - 1) (high - low + 1)
  have hmlt : ((value - low + 1) * totalOf freq - 1) % (high - low + 1)
      < high - low + 1 := Nat.mod_lt _ hr0
  have hrs : (high - low + 1) * scaledOf (totalOf freq) low high value
      ≤ (value - low + 1) * totalOf freq - 1 := by
    rw [hse]
    omega
  have hks : (value - low + 1) * totalOf freq
      ≤ (high - low + 1) * (scaledOf (totalOf freq) low high value + 1) := by
    have hx : (high - low + 1) * (scaledOf (totalOf freq) low high value + 1)
        = (high - low + 1) * scaledOf (totalOf freq) low high value
          + (high - low + 1) := by
      ring
    rw [hse] at hx ⊢
    omega
  have hA : (high - low + 1) * buildCum freq (findSymbol
        (scaledOf (totalOf freq) low high value) (buildCum freq)) / totalOf freq
      ≤ value - low := by
    have h1 : (high - low + 1) * buildCum freq (findSymbol
          (scaledOf (totalOf freq) low high value) (buildCum freq))
        ≤ (high - low + 1) * scaledOf (totalOf freq) low high value :=
      Nat.mul_le_mul_left _ hcl
    have h2 : (high - low + 1) * buildCum freq (findSymbol
          (scaledOf (totalOf freq) low high value) (buildCum freq))
        ≤ (value - low + 1) * totalOf freq - 1 := le_trans h1 hrs
    have h3 := @Nat.div_le_div_right _ _ (totalOf freq) h2
    have h4 : ((value - low + 1) * totalOf freq - 1) / totalOf freq = value - low := by
      have h5 : (value - low + 1) * totalOf freq = totalOf freq * (value - low + 1) := by
        ring
      rw [h5, mul_pred_div_self htot (by omega)]
      omega
    omega
  have hB : value - low + 1 ≤ (high - low + 1) * buildCum freq (findSymbol
        (scaledOf (totalOf freq) low high value) (buildCum freq) + 1) / totalOf freq := by
    rw [Nat.le_div_iff_mul_le htot]
    have h1 : (high - low + 1) * (scaledOf (totalOf freq) low high value + 1)
        ≤ (high - low + 1) * buildCum freq (findSymbol
            (scaledOf (totalOf freq) low high value) (buildCum freq) + 1) :=
      Nat.mul_le_mul_left _ (by omega)
    calc (value - low + 1) * totalOf freq
        ≤ (high - low + 1) * (scaledOf (totalOf freq) low high value + 1) := hks
      _ ≤ _ := h1
  have hBr : (high - low + 1) * buildCum freq (findSymbol
        (scaledOf (totalOf freq) low high value) (buildCum freq) + 1) / totalOf freq
      ≤ high - low + 1 := by
    have h1 : (high - low + 1) * buildCum freq (findSymbol
          (scaledOf (totalOf freq) low high value) (buildCum freq) + 1)
        ≤ (high - low + 1) * totalOf freq := Nat.mul_le_mul_left _ hchle
    calc (high - low + 1) * buildCum freq (findSymbol
          (scaledOf (totalOf freq) low high value) (buildCum freq) + 1) / totalOf freq
        ≤ (high - low + 1) * totalOf freq / totalOf freq := Nat.div_le_div_right h1
      _ = high - low + 1 := Nat.mul_div_cancel _ htot
  have hpos : totalOf freq ≤ (high - low + 1) * buildCum freq (findSymbol
      (scaledOf (totalOf freq) low high value) (buildCum freq) + 1) := by
    have h1 := (Nat.le_div_iff_mul_le htot).mp hB
    have h2 : totalOf freq ≤ (value - low + 1) * totalOf freq := by
      have h3 := Nat.mul_le_mul_right (totalOf freq) hk1
      omega
    omega
  have hL := narrowLow_eq hlh hh htot htU hclle
  have hH := narrowHigh_eq hlh hh htot htU hchle hpos
  refine ⟨hsym256, ?_, ?_, ?_⟩
  · rw [hL]; omega
  · rw [hH]; omega
  · rw [hH]; omega

end ArithCode

namespace ArithCode

/-! ## Decoder renormalization: invariants and termination -/

theorem readOneBit_le_one (ebc : Nat) (s : DecBits) : (readOneBit ebc s).1 ≤ 1 := by
  by_cases h : s.bitsRead < ebc
  · simp only [readOneBit, h, if_true]
    cases hb : readBit s.br with
    | none => simp
    | some p =>
      obtain ⟨b, br2⟩ := p
      cases b <;> simp
  · simp [readOneBit, h]

theorem shiftValue_eq {v : Nat} (b : Nat) (h : 2 * v < M64) :
    shiftValue v b = 2 * v + b := by
  unfold shiftValue
  rw [Nat.mod_eq_of_lt h]

theorem decRenorm_spec (ebc : Nat) : ∀ (fuel : Nat) (st : DecSt),
    st.low ≤ st.value → st.value ≤ st.high → st.high ≤ MAX_VALUE →
    U32 < 2 ^ fuel * (st.high - st.low + 1) →
    ∃ st2, decRenorm ebc fuel st = some st2 ∧
      st2.low ≤ st2.value ∧ st2.value ≤ st2.high ∧ st2.high ≤ MAX_VALUE ∧
      ¬ renormActive st2.low st2.high := by
  intro fuel
  induction fuel with
  | zero =>
    intro st h1 h2 h3 hpow
    exfalso
    rw [U32_eq] at hpow
    rw [MAX_VALUE_eq] at h3
    simp only [pow_zero, one_mul] at hpow
    omega
  | succ fuel ih =>
    intro st h1 h2 h3 hpow
    have hlh : st.low ≤ st.high := le_trans h1 h2
    have hvM : 2 * st.value < M64 := by
      rw [M64_eq]
      have := lt_M64_of_le_MAX (le_trans h2 h3)
      rw [M64_eq] at this
      rw [MAX_VALUE_eq] at h3
      omega
    have hbit := readOneBit_le_one ebc st.bits
    have hpow2 : ∀ a b : Nat, a - b + 1 = 2 * (st.high - st.low + 1) →
        U32 < 2 ^ fuel * (a - b + 1) := by
      intro a b hab
      rw [hab]
      calc U32 < 2 ^ (fuel + 1) * (st.high - st.low + 1) := hpow
        _ = 2 ^ fuel * (2 * (st.high - st.low + 1)) := by ring
    by_cases hA : st.high < HALF
    · have e1 : shiftLow st.low = 2 * st.low := shiftLow_eq (by
        rw [M64_eq]; rw [HALF_eq] at hA; omega)
      have e2 : shiftHigh st.high = 2 * st.high + 1 := shiftHigh_eq (by
        rw [M64_eq]; rw [HALF_eq] at hA; omega)
      have e3 : shiftValue st.value (readOneBit ebc st.bits).1
          = 2 * st.value + (readOneBit ebc st.bits).1 := shiftValue_eq _ hvM
      obtain ⟨st2, heq, hj⟩ := ih
        ⟨shiftLow st.low, shiftHigh st.high,
          shiftValue st.value (readOneBit ebc st.bits).1, (readOneBit ebc st.bits).2⟩
        (by simp only [e1, e3]; omega)
        (by simp only [e2, e3]; omega)
        (by simp only [e2]; rw [MAX_VALUE_eq]; rw [HALF_eq] at hA; omega)
        (by simp only [e1, e2]; exact hpow2 _ _ (by omega))
      refine ⟨st2, ?_, hj⟩
      simp only [decRenorm, hA, if_true]
      exact heq
    · by_cases hB : HALF ≤ st.low
      · have hvH : HALF ≤ st.value := le_trans hB h1
        have hhH : HALF ≤ st.high := le_trans hvH h2
        have hlM : st.low < M64 := lt_M64_of_le_MAX (le_trans hlh h3)
        have hvM2 : st.value < M64 := lt_M64_of_le_MAX (le_trans h2 h3)
        have hhM : st.high < M64 := lt_M64_of_le_MAX h3
        have e1 : shiftLow (sub64 st.low HALF) = 2 * (st.low - HALF) := by
          rw [sub64_eq hB hlM]
          exact shiftLow_eq (by rw [M64_eq]; rw [MAX_VALUE_eq] at h3; omega)
        have e2 : shiftHigh (sub64 st.high HALF) = 2 * (st.high - HALF) + 1 := by
          rw [sub64_eq hhH hhM]
          exact shiftHigh_eq (by rw [M64_eq]; rw [MAX_VALUE_eq] at h3; omega)
        have e3 : shiftValue (sub64 st.value HALF) (readOneBit ebc st.bits).1
            = 2 * (st.value - HALF) + (readOneBit ebc st.bits).1 := by
          rw [sub64_eq hvH hvM2]
          exact shiftValue_eq _ (by rw [M64_eq]; rw [MAX_VALUE_eq] at h3; omega)
        obtain ⟨st2, heq, hj⟩ := ih
          ⟨shiftLow (sub64 st.low HALF), shiftHigh (sub64 st.high HALF),
            shiftValue (sub64 st.value HALF) (readOneBit ebc st.bits).1,
            (readOneBit ebc st.bits).2⟩
          (by simp only [e1, e3]; omega)
          (by simp only [e2, e3]; omega)
          (by simp only [e2]; rw [MAX_VALUE_eq]; rw [MAX_VALUE_eq] at h3
              rw [HALF_eq] at hB ⊢; omega)
          (by simp only [e1, e2]; apply hpow2; rw [HALF_eq] at hB ⊢; omega)
        refine ⟨st2, ?_, hj⟩
        simp only [decRenorm, hA, if_false, hB, if_true]
        exact heq
      · by_cases hC : QUARTER ≤ st.low ∧ st.high < THREE_QUARTERS
        · have hvQ : QUARTER ≤ st.value := le_trans hC.1 h1
          have hhQ : QUARTER ≤ st.high := le_trans hvQ h2
          have hlM : st.low < M64 := lt_M64_of_le_MAX (le_trans hlh h3)
          have hvM2 : st.value < M64 := lt_M64_of_le_MAX (le_trans h2 h3)
          have hhM : st.high < M64 := lt_M64_of_le_MAX h3
          have e1 : shiftLow (sub64 st.low QUARTER) = 2 * (st.low - QUARTER) := by
            rw [sub64_eq hC.1 hlM]
            exact shiftLow_eq (by rw [M64_eq]; rw [MAX_VALUE_eq] at h3; omega)
          have e2 : shiftHigh (sub64 st.high QUARTER) = 2 * (st.high - QUARTER) + 1 := by
            rw [sub64_eq hhQ hhM]
            exact shiftHigh_eq (by rw [M64_eq]; rw [MAX_VALUE_eq] at h3; omega)
          have e3 : shiftValue (sub64 st.value QUARTER) (readOneBit ebc st.bits).1
              = 2 * (st.value - QUARTER) + (readOneBit ebc st.bits).1 := by
            rw [sub64_eq hvQ hvM2]
            exact shiftValue_eq _ (by rw [M64_eq]; rw [MAX_VALUE_eq] at h3; omega)
          obtain ⟨st2, heq, hj⟩ := ih
            ⟨shiftLow (sub64 st.low QUARTER), shiftHigh (sub64 st.high QUARTER),
              shiftValue (sub64 st.value QUARTER) (readOneBit ebc st.bits).1,
              (readOneBit ebc st.bits).2⟩
            (by simp only [e1, e3]; omega)
            (by simp only [e2, e3]; omega)
            (by simp only [e2]; rw [MAX_VALUE_eq, QUARTER_eq]
                have hC2 := hC.2
                rw [THREE_QUARTERS_eq] at hC2; omega)
            (by simp only [e1, e2]; apply hpow2
                have hC1 := hC.1
                rw [QUARTER_eq] at hC1 ⊢; omega)
          refine ⟨st2, ?_, hj⟩
          simp only [decRenorm, hA, if_false, hB, hC, if_true, and_self]
          exact heq
        · refine ⟨st, ?_, h1, h2, h3, ?_⟩
          · simp only [decRenorm, hA, if_false, hB, hC]
          · unfold renormActive
            push_neg
            refine ⟨by omega, by omega, fun hq => ?_⟩
            have hb : ¬ st.high < THREE_QUARTERS := fun hb => hC ⟨hq, hb⟩
            exact Nat.le_of_not_lt hb

theorem decRenorm_terminates {ebc fuel : Nat} (hf : 33 ≤ fuel) (st : DecSt)
    (h1 : st.low ≤ st.value) (h2 : st.value ≤ st.high) (h3 : st.high ≤ MAX_VALUE) :
    ∃ st2, decRenorm ebc fuel st = some st2 ∧
      st2.low ≤ st2.value ∧ st2.value ≤ st2.high ∧ st2.high ≤ MAX_VALUE ∧
      ¬ renormActive st2.low st2.high := by
  apply decRenorm_spec ebc fuel st h1 h2 h3
  have ha : (2 : Nat) ^ 33 ≤ 2 ^ fuel := Nat.pow_le_pow_right (by norm_num) hf
  have hb : 1 ≤ st.high - st.low + 1 := by omega
  have hc : 2 ^ 33 * 1 ≤ 2 ^ fuel * (st.high - st.low + 1) := Nat.mul_le_mul ha hb
  calc U32 = 4294967296 := U32_eq
    _ < 2 ^ 33 * 1 := by norm_num
    _ ≤ 2 ^ fuel * (st.high - st.low + 1) := hc

theorem decStep_spec {freq : Nat → Nat} {ebc fuel : Nat} (hf : 33 ≤ fuel)
    (hsum : cumRaw freq 256 < U32) (htot : 0 < totalOf freq) (st : DecSt)
    (h1 : st.low ≤ st.value) (h2 : st.value ≤ st.high) (h3 : st.high ≤ MAX_VALUE) :
    ∃ sym st2, decStep (buildCum freq) (totalOf freq) ebc fuel st = some (sym, st2) ∧
      st2.low ≤ st2.value ∧ st2.value ≤ st2.high ∧ st2.high ≤ MAX_VALUE := by
  obtain ⟨hslt, hmod, hsym, hnl, hnh, hnhh⟩ := decoder_step_bounds hsum htot h1 h2 h3
  obtain ⟨st2, heq, hj1, hj2, hj3, _⟩ := @decRenorm_terminates ebc _ hf
    ⟨narrowLow (totalOf freq)
        (buildCum freq (findSymbol (scaledOf (totalOf freq) st.low st.high st.value % U32)
          (buildCum freq))) st.low st.high,
      narrowHigh (totalOf freq)
        (buildCum freq (findSymbol (scaledOf (totalOf freq) st.low st.high st.value % U32)
          (buildCum freq) + 1)) st.low st.high,
      st.value, st.bits⟩
    hnl hnh (le_trans hnhh h3)
  refine ⟨findSymbol (scaledOf (totalOf freq) st.low st.high st.value % U32) (buildCum freq),
    st2, ?_, hj1, hj2, hj3⟩
  simp only [decStep, heq]

theorem decLoop_spec {freq : Nat → Nat} {ebc fuel : Nat} (hf : 33 ≤ fuel)
    (hsum : cumRaw freq 256 < U32) (htot : 0 < totalOf freq) :
    ∀ (n : Nat) (st : DecSt),
      st.low ≤ st.value → st.value ≤ st.high → st.high ≤ MAX_VALUE →
      ∃ out, decLoop (buildCum freq) (totalOf freq) ebc fuel n st = some out ∧
        out.length = n := by
  intro n
  induction n with
  | zero => intro st _ _ _; exact ⟨[], rfl, rfl⟩
  | succ n ih =>
    intro st h1 h2 h3
    obtain ⟨sym, st2, heq, hj1, hj2, hj3⟩ := @decStep_spec _ ebc _ hf hsum htot st h1 h2 h3
    obtain ⟨out, heq2, hlen⟩ := ih st2 hj1 hj2 hj3
    refine ⟨sym :: out, ?_, by simp [hlen]⟩
    simp only [decLoop, heq, heq2]

theorem decReach_spec {freq : Nat → Nat} {ebc fuel : Nat} (hf : 33 ≤ fuel)
    (hsum : cumRaw freq 256 < U32) (htot : 0 < totalOf freq) :
    ∀ (n : Nat) (st : DecSt),
      st.low ≤ st.value → st.value ≤ st.high → st.high ≤ MAX_VALUE →
      ∃ st2, decReach (buildCum freq) (totalOf freq) ebc fuel n st = some st2 ∧
        st2.low ≤ st2.value ∧ st2.value ≤ st2.high ∧ st2.high ≤ MAX_VALUE := by
  intro n
  induction n with
  | zero => intro st h1 h2 h3; exact ⟨st, rfl, h1, h2, h3⟩
  | succ n ih =>
    intro st h1 h2 h3
    obtain ⟨sym, st2, heq, hj1, hj2, hj3⟩ := @decStep_spec _ ebc _ hf hsum htot st h1 h2 h3
    obtain ⟨st3, heq2, hj⟩ := ih st2 hj1 hj2 hj3
    refine ⟨st3, ?_, hj⟩
    simp only [decReach, heq, heq2]

theorem initValue_lt (ebc : Nat) : ∀ (n v : Nat) (s : DecBits),
    (initValue ebc n v s).1 < (v + 1) * 2 ^ n := by
  intro n
  induction n with
  | zero => intro v s; simp [initValue]
  | succ n ih =>
    intro v s
    have hsv : shiftValue v (readOneBit ebc s).1 ≤ 2 * v + 1 := by
      have h1 := readOneBit_le_one ebc s
      have h2 : (2 * v) % M64 ≤ 2 * v := Nat.mod_le _ _
      unfold shiftValue
      omega
    have h3 := ih (shiftValue v (readOneBit ebc s).1) (readOneBit ebc s).2
    have h4 : (shiftValue v (readOneBit ebc s).1 + 1) * 2 ^ n ≤ (v + 1) * 2 ^ (n + 1) := by
      have h5 : (shiftValue v (readOneBit ebc s).1 + 1) ≤ 2 * (v + 1) := by omega
      calc (shiftValue v (readOneBit ebc s).1 + 1) * 2 ^ n
          ≤ 2 * (v + 1) * 2 ^ n := Nat.mul_le_mul_right _ h5
        _ = (v + 1) * 2 ^ (n + 1) := by ring
    calc (initValue ebc (n + 1) v s).1
        = (initValue ebc n (shiftValue v (readOneBit ebc s).1) (readOneBit ebc s).2).1 := rfl
      _ < (shiftValue v (readOneBit ebc s).1 + 1) * 2 ^ n := h3
      _ ≤ (v + 1) * 2 ^ (n + 1) := h4

theorem decInit_inv (ebc : Nat) (payload : List Nat) :
    (decInit ebc payload).low ≤ (decInit ebc payload).value ∧
    (decInit ebc payload).value ≤ (decInit ebc payload).high ∧
    (decInit ebc payload).high ≤ MAX_VALUE := by
  have h := initValue_lt ebc 32 0 ⟨⟨payload, 0, 0⟩, 0⟩
  refine ⟨Nat.zero_le _, ?_, le_refl _⟩
  show (initValue ebc 32 0 ⟨⟨payload, 0, 0⟩, 0⟩).1 ≤ MAX_VALUE
  rw [MAX_VALUE_eq]
  norm_num at h
  omega

end ArithCode

namespace ArithCode

/-! ## Iteration-level invariants of the decoder loop body -/

theorem decIter_inv {ebc : Nat} {st : DecSt} (h1 : st.low ≤ st.value)
    (h2 : st.value ≤ st.high) (h3 : st.high ≤ MAX_VALUE) :
    (decIter ebc st).low ≤ (decIter ebc st).value ∧
    (decIter ebc st).value ≤ (decIter ebc st).high ∧
    (decIter ebc st).high ≤ MAX_VALUE := by
  have hlh : st.low ≤ st.high := le_trans h1 h2
  have hvM : 2 * st.value < M64 := by
    rw [M64_eq]
    rw [MAX_VALUE_eq] at h3
    omega
  have hbit := readOneBit_le_one ebc st.bits
  unfold decIter
  by_cases hA : st.high < HALF
  · have e1 : shiftLow st.low = 2 * st.low := shiftLow_eq (by
      rw [M64_eq]; rw [HALF_eq] at hA; omega)
    have e2 : shiftHigh st.high = 2 * st.high + 1 := shiftHigh_eq (by
      rw [M64_eq]; rw [HALF_eq] at hA; omega)
    have e3 : shiftValue st.value (readOneBit ebc st.bits).1
        = 2 * st.value + (readOneBit ebc st.bits).1 := shiftValue_eq _ hvM
    simp only [hA, if_true, e1, e2, e3]
    rw [MAX_VALUE_eq]
    rw [HALF_eq] at hA
    refine ⟨by omega, by omega, by omega⟩
  · by_cases hB : HALF ≤ st.low
    · have hvH : HALF ≤ st.value := le_trans hB h1
      have hhH : HALF ≤ st.high := le_trans hvH h2
      have hlM : st.low < M64 := lt_M64_of_le_MAX (le_trans hlh h3)
      have hvM2 : st.value < M64 := lt_M64_of_le_MAX (le_trans h2 h3)
      have hhM : st.high < M64 := lt_M64_of_le_MAX h3
      have e1 : shiftLow (sub64 st.low HALF) = 2 * (st.low - HALF) := by
        rw [sub64_eq hB hlM]
        exact shiftLow_eq (by rw [M64_eq]; rw [MAX_VALUE_eq] at h3; omega)
      have e2 : shiftHigh (sub64 st.high HALF) = 2 * (st.high - HALF) + 1 := by
        rw [sub64_eq hhH hhM]
        exact shiftHigh_eq (by rw [M64_eq]; rw [MAX_VALUE_eq] at h3; omega)
      have e3 : shiftValue (sub64 st.value HALF) (readOneBit ebc st.bits).1
          = 2 * (st.value - HALF) + (readOneBit ebc st.bits).1 := by
        rw [sub64_eq hvH hvM2]
        exact shiftValue_eq _ (by rw [M64_eq]; rw [MAX_VALUE_eq] at h3; omega)
      simp only [hA, if_false, hB, if_true, e1, e2, e3]
      rw [MAX_VALUE_eq] at h3 ⊢
      rw [HALF_eq] at hB ⊢
      refine ⟨by omega, by omega, by omega⟩
    · by_cases hC : QUARTER ≤ st.low ∧ st.high < THREE_QUARTERS
      · have hvQ : QUARTER ≤ st.value := le_trans hC.1 h1
        have hhQ : QUARTER ≤ st.high := le_trans hvQ h2
        have hlM : st.low < M64 := lt_M64_of_le_MAX (le_trans hlh h3)
        have hvM2 : st.value < M64 := lt_M64_of_le_MAX (le_trans h2 h3)
        have hhM : st.high < M64 := lt_M64_of_le_MAX h3
        have e1 : shiftLow (sub64 st.low QUARTER) = 2 * (st.low - QUARTER) := by
          rw [sub64_eq hC.1 hlM]
          exact shiftLow_eq (by rw [M64_eq]; rw [MAX_VALUE_eq] at h3; omega)
        have e2 : shiftHigh (sub64 st.high QUARTER) = 2 * (st.high - QUARTER) + 1 := by
          rw [sub64_eq hhQ hhM]
          exact shiftHigh_eq (by rw [M64_eq]; rw [MAX_VALUE_eq] at h3; omega)
        have e3 : shiftValue (sub64 st.value QUARTER) (readOneBit ebc st.bits).1
            = 2 * (st.value - QUARTER) + (readOneBit ebc st.bits).1 := by
          rw [sub64_eq hvQ hvM2]
          exact shiftValue_eq _ (by rw [M64_eq]; rw [MAX_VALUE_eq] at h3; omega)
        simp only [hA, if_false, hB, hC, if_true, and_self, e1, e2, e3]
        obtain ⟨hC1, hC2⟩ := hC
        rw [MAX_VALUE_eq]
        rw [QUARTER_eq] at hC1 ⊢
        rw [THREE_QUARTERS_eq] at hC2
        refine ⟨by omega, by omega, by omega⟩
      · simp only [hA, if_false, hB, hC]
        exact ⟨h1, h2, h3⟩

theorem decIter_iterate_inv {ebc : Nat} {st : DecSt} (h1 : st.low ≤ st.value)
    (h2 : st.value ≤ st.high) (h3 : st.high ≤ MAX_VALUE) (n : Nat) :
    (((decIter ebc)^[n]) st).low ≤ (((decIter ebc)^[n]) st).value ∧
    (((decIter ebc)^[n]) st).value ≤ (((decIter ebc)^[n]) st).high ∧
    (((decIter ebc)^[n]) st).high ≤ MAX_VALUE := by
  induction n with
  | zero => exact ⟨h1, h2, h3⟩
  | succ n ih =>
    rw [Function.iterate_succ_apply']
    exact decIter_inv ih.1 ih.2.1 ih.2.2

/-! ## One renormalization iteration doubles the interval width -/

theorem encIter_doubles {st : EncSt} (h1 : st.low ≤ st.high) (h2 : st.high ≤ MAX_VALUE)
    (ha : renormActive st.low st.high) :
    (encIter st).high - (encIter st).low + 1 = 2 * (st.high - st.low + 1) := by
  unfold encIter
  by_cases hA : st.high < HALF
  · have e1 : shiftLow st.low = 2 * st.low := shiftLow_eq (by
      rw [M64_eq]; rw [HALF_eq] at hA; omega)
    have e2 : shiftHigh st.high = 2 * st.high + 1 := shiftHigh_eq (by
      rw [M64_eq]; rw [HALF_eq] at hA; omega)
    simp only [hA, if_true, e1, e2]
    omega
  · by_cases hB : HALF ≤ st.low
    · have hhH : HALF ≤ st.high := le_trans hB h1
      have hlM : st.low < M64 := lt_M64_of_le_MAX (le_trans h1 h2)
      have hhM : st.high < M64 := lt_M64_of_le_MAX h2
      have e1 : shiftLow (sub64 st.low HALF) = 2 * (st.low - HALF) := by
        rw [sub64_eq hB hlM]
        exact shiftLow_eq (by rw [M64_eq]; rw [MAX_VALUE_eq] at h2; omega)
      have e2 : shiftHigh (sub64 st.high HALF) = 2 * (st.high - HALF) + 1 := by
        rw [sub64_eq hhH hhM]
        exact shiftHigh_eq (by rw [M64_eq]; rw [MAX_VALUE_eq] at h2; omega)
      simp only [hA, if_false, hB, if_true, e1, e2]
      rw [HALF_eq] at hB ⊢
      omega
    · by_cases hC : QUARTER ≤ st.low ∧ st.high < THREE_QUARTERS
      · have hhQ : QUARTER ≤ st.high := le_trans hC.1 h1
        have hlM : st.low < M64 := lt_M64_of_le_MAX (le_trans h1 h2)
        have hhM : st.high < M64 := lt_M64_of_le_MAX h2
        have e1 : shiftLow (sub64 st.low QUARTER) = 2 * (st.low - QUARTER) := by
          rw [sub64_eq hC.1 hlM]
          exact shiftLow_eq (by rw [M64_eq]; rw [MAX_VALUE_eq] at h2; omega)
        have e2 : shiftHigh (sub64 st.high QUARTER) = 2 * (st.high - QUARTER) + 1 := by
          rw [sub64_eq hhQ hhM]
          exact shiftHigh_eq (by rw [M64_eq]; rw [MAX_VALUE_eq] at h2; omega)
        simp only [hA, if_false, hB, hC, if_true, and_self, e1, e2]
        obtain ⟨hC1, hC2⟩ := hC
        rw [QUARTER_eq] at hC1 ⊢
        omega
      · exfalso
        unfold renormActive at ha
        rcases ha with h | h | h
        · exact hA h
        · exact hB h
        · exact hC h

theorem decIter_doubles {ebc : Nat} {st : DecSt} (h1 : st.low ≤ st.high)
    (h2 : st.high ≤ MAX_VALUE) (ha : renormActive st.low st.high) :
    (decIter ebc st).high - (decIter ebc st).low + 1 = 2 * (st.high - st.low + 1) := by
  unfold decIter
  by_cases hA : st.high < HALF
  · have e1 : shiftLow st.low = 2 * st.low := shiftLow_eq (by
      rw [M64_eq]; rw [HALF_eq] at hA; omega)
    have e2 : shiftHigh st.high = 2 * st.high + 1 := shiftHigh_eq (by
      rw [M64_eq]; rw [HALF_eq] at hA; omega)
    simp only [hA, if_true, e1, e2]
    omega
  · by_cases hB : HALF ≤ st.low
    · have hhH : HALF ≤ st.high := le_trans hB h1
      have hlM : st.low < M64 := lt_M64_of_le_MAX (le_trans h1 h2)
      have hhM : st.high < M64 := lt_M64_of_le_MAX h2
      have e1 : shiftLow (sub64 st.low HALF) = 2 * (st.low - HALF) := by
        rw [sub64_eq hB hlM]
        exact shiftLow_eq (by rw [M64_eq]; rw [MAX_VALUE_eq] at h2; omega)
      have e2 : shiftHigh (sub64 st.high HALF) = 2 * (st.high - HALF) + 1 := by
        rw [sub64_eq hhH hhM]
        exact shiftHigh_eq (by rw [M64_eq]; rw [MAX_VALUE_eq] at h2; omega)
      simp only [hA, if_false, hB, if_true, e1, e2]
      rw [HALF_eq] at hB ⊢
      omega
    · by_cases hC : QUARTER ≤ st.low ∧ st.high < THREE_QUARTERS
      · have hhQ : QUARTER ≤ st.high := le_trans hC.1 h1
        have hlM : st.low < M64 := lt_M64_of_le_MAX (le_trans h1 h2)
        have hhM : st.high < M64 := lt_M64_of_le_MAX h2
        have e1 : shiftLow (sub64 st.low QUARTER) = 2 * (st.low - QUARTER) := by
          rw [sub64_eq hC.1 hlM]
          exact shiftLow_eq (by rw [M64_eq]; rw [MAX_VALUE_eq] at h2; omega)
        have e2 : shiftHigh (sub64 st.high QUARTER) = 2 * (st.high - QUARTER) + 1 := by
          rw [sub64_eq hhQ hhM]
          exact shiftHigh_eq (by rw [M64_eq]; rw [MAX_VALUE_eq] at h2; omega)
        simp only [hA, if_false, hB, hC, if_true, and_self, e1, e2]
        obtain ⟨hC1, hC2⟩ := hC
        rw [QUARTER_eq] at hC1 ⊢
        omega
      · exfalso
        unfold renormActive at ha
        rcases ha with h | h | h
        · exact hA h
        · exact hB h
        · exact hC h

end ArithCode

namespace ArithCode

/-! ## Decoder output length and zero-padding (claim C7) -/

/-- Claim C7, amended: for a header with the correct magic, `total > 0`, AND
a frequency table whose raw sum fits in 32 bits (so the `uint32_t` cumulative
counters do not wrap — true of every header the encoder writes),
`decompressArithmetic` outputs exactly `origSize` bytes and stops, regardless
of the payload contents and length; and `readOneBit` returns `0` uncondition-
ally once the `encodedBitCount` budget is exhausted or the underlying reader
is out of bytes, so a truncated bitstream is never a fatal error. -/
theorem c7_decoder_output (origSize ebc : Nat) (freq : Nat → Nat) (payload : List Nat)
    (s : DecBits)
    (hsum : cumRaw freq 256 < U32) (htot : 0 < totalOf freq) :
    (∃ out, decompressArithmetic MAGIC origSize freq ebc payload = .ok out ∧
      out.length = origSize) ∧
    (ebc ≤ s.bitsRead → readOneBit ebc s = (0, ⟨s.br, s.bitsRead + 1⟩)) ∧
    (s.br.bitsLeft = 0 → s.br.rest = [] → (readOneBit ebc s).1 = 0) := by
  refine ⟨?_, ?_, ?_⟩
  · obtain ⟨i1, i2, i3⟩ := decInit_inv ebc payload
    obtain ⟨out, heq, hlen⟩ := @decLoop_spec _ ebc RENORM_FUEL
      (by norm_num [RENORM_FUEL]) hsum htot origSize (decInit ebc payload) i1 i2 i3
    refine ⟨out, ?_, hlen⟩
    have h1 : ¬ (MAGIC ≠ MAGIC) := fun hc => hc rfl
    have h2 : ¬ (totalOf freq = 0) := by omega
    simp only [decompressArithmetic, h1, if_false, h2, heq]
  · intro hle
    unfold readOneBit
    rw [if_neg (by omega)]
  · intro hbl hrest
    by_cases h : s.bitsRead < ebc
    · have hrb : readBit s.br = none := by
        unfold readBit
        rw [hbl, hrest]
    
      simp [readOneBit, h, hrb]
    · simp [readOneBit, h]

set_option maxRecDepth 20000 in
/-- Witness for the amended C7 at the table `smallFreq`, `origSize = 3`,
an empty payload and a zero bit budget: the decoder still emits exactly
three bytes. -/
theorem c7_witness :
    (∃ out, decompressArithmetic MAGIC 3 smallFreq 0 [] = .ok out ∧ out.length = 3) ∧
    (0 ≤ (⟨⟨[], 0, 0⟩, 5⟩ : DecBits).bitsRead →
      readOneBit 0 ⟨⟨[], 0, 0⟩, 5⟩ = (0, ⟨⟨[], 0, 0⟩, 6⟩)) ∧
    ((⟨⟨[], 0, 0⟩, 5⟩ : DecBits).br.bitsLeft = 0 →
      (⟨⟨[], 0, 0⟩, 5⟩ : DecBits).br.rest = [] →
      (readOneBit 0 ⟨⟨[], 0, 0⟩, 5⟩).1 = 0) :=
  c7_decoder_output 3 0 smallFreq [] ⟨⟨[], 0, 0⟩, 5⟩ (by decide) (by decide)

/-! ## The scaled value stays below total (claim C9) -/

/-- Claim C9: at every step of a decoding run over a frequency table whose
raw sum fits in 32 bits with `total > 0` (which covers every bitstream the
encoder itself produces, and in fact any bitstream at all), the `scaled`
value is `< total` — before and after the `uint32_t` cast — and some symbol
`s < 256` satisfies `scaled < cum[s+1]`, so the clamp-to-255 fallback after
the `findSymbol` loop is never reached. -/
theorem c9_scaled_lt_total (freq : Nat → Nat) (ebc m : Nat) (payload : List Nat) (t : DecSt)
    (hsum : cumRaw freq 256 < U32) (htot : 0 < totalOf freq)
    (hreach : decReach (buildCum freq) (totalOf freq) ebc RENORM_FUEL m
      (decInit ebc payload) = some t) :
    scaledOf (totalOf freq) t.low t.high t.value < totalOf freq ∧
    scaledOf (totalOf freq) t.low t.high t.value % U32 < totalOf freq ∧
    (∃ s, s < 256 ∧
      scaledOf (totalOf freq) t.low t.high t.value % U32 < buildCum freq (s + 1)) := by
  obtain ⟨i1, i2, i3⟩ := decInit_inv ebc payload
  obtain ⟨t2, heq, hj1, hj2, hj3⟩ := @decReach_spec _ ebc RENORM_FUEL
    (by norm_num [RENORM_FUEL]) hsum htot m (decInit ebc payload) i1 i2 i3
  rw [heq] at hreach
  cases hreach
  obtain ⟨hslt, hmod, _⟩ := decoder_step_bounds hsum htot hj1 hj2 hj3
  refine ⟨hslt, by omega, ?_⟩
  have hcum0 : buildCum freq 0 ≤ scaledOf (totalOf freq) t.low t.high t.value % U32 := by
    rw [buildCum_zero]; exact Nat.zero_le _
  have hcum256 : scaledOf (totalOf freq) t.low t.high t.value % U32 < buildCum freq 256 := by
    rw [hmod]; exact hslt
  obtain ⟨hs256, _, hch⟩ := findSymbol_spec _ (buildCum freq) hcum0 hcum256
  exact ⟨_, hs256, hch⟩

set_option maxRecDepth 20000 in
/-- Witness for C9 at the table `smallFreq` after one decoding step of an
all-zero bitstream. -/
theorem c9_witness :
    scaledOf (totalOf smallFreq) 0 3435973835 0 < totalOf smallFreq ∧
    scaledOf (totalOf smallFreq) 0 3435973835 0 % U32 < totalOf smallFreq ∧
    (∃ s, s < 256 ∧
      scaledOf (totalOf smallFreq) 0 3435973835 0 % U32 < buildCum smallFreq (s + 1)) := by
  have h := c9_scaled_lt_total smallFreq 0 1 []
    ⟨0, 3435973835, 0, ⟨⟨[], 0, 0⟩, 33⟩⟩ (by decide) (by decide) (by decide)
  exact h

end ArithCode

namespace ArithCode

/-! ## The interval invariant (claim C2) -/

/-- Claim C2, amended: the interval invariant `low ≤ high`, with both ends in
the 32-bit range, holds at every loop-top state, after every narrowing and
after every renormalization iteration — on the encoder side provided the
input length (= `total`) is at most `QUARTER = 2^30`, and on the decoder side
provided the stored frequency table's raw sum fits in 32 bits.  (The
counterexample shows both provisos are necessary.) -/
theorem c2_interval_invariant
    (D : List Nat) (k n : Nat)
    (freq : Nat → Nat) (ebc m n2 : Nat) (payload : List Nat)
    (s : EncSt) (t : DecSt)
    (hB : ∀ b ∈ D, b < 256) (hQ : D.length ≤ QUARTER) (hne : D ≠ [])
    (hreach : encReach (buildCum (freqOf D)) (totalOf (freqOf D)) RENORM_FUEL D k = some s)
    (hsum : cumRaw freq 256 < U32) (htot : 0 < totalOf freq)
    (hdreach : decReach (buildCum freq) (totalOf freq) ebc RENORM_FUEL m
      (decInit ebc payload) = some t) :
    IntervalOk s.low s.high ∧
    (k < D.length →
      IntervalOk
        ((encIter^[n]) (encNarrowed (buildCum (freqOf D)) (totalOf (freqOf D)) s
          (D.getD k 0))).low
        ((encIter^[n]) (encNarrowed (buildCum (freqOf D)) (totalOf (freqOf D)) s
          (D.getD k 0))).high) ∧
    IntervalOk t.low t.high ∧
    IntervalOk
      (((decIter ebc)^[n2]) (decNarrowed (buildCum freq) (totalOf freq) t)).low
      (((decIter ebc)^[n2]) (decNarrowed (buildCum freq) (totalOf freq) t)).high := by
  have hlen : D.length < U32 := by
    rw [QUARTER_eq] at hQ; rw [U32_eq]; omega
  have htoteq : totalOf (freqOf D) = D.length := totalOf_freqOf hlen hB
  obtain ⟨s0, heq, hs1, hs2, hs3⟩ := encReach_inv hB hQ hne k
  rw [heq] at hreach
  cases hreach
  obtain ⟨i1, i2, i3⟩ := decInit_inv ebc payload
  obtain ⟨t0, hdeq, ht1, ht2, ht3⟩ := @decReach_spec _ ebc RENORM_FUEL
    (by norm_num [RENORM_FUEL]) hsum htot m (decInit ebc payload) i1 i2 i3
  rw [hdeq] at hdreach
  cases hdreach
  refine ⟨⟨hs1, hs2⟩, ?_, ⟨le_trans ht1 ht2, ht3⟩, ?_⟩
  · intro hk
    have hmem : D.getD k 0 ∈ D := by
      rw [List.getD_eq_getElem D 0 hk]
      exact List.getElem_mem hk
    obtain ⟨hclch, hch⟩ := encoder_cum_bounds hlen hB hmem
    have hrange : QUARTER < s.high - s.low + 1 := range_of_exit hs1 hs3
    have htr : totalOf (freqOf D) ≤ s.high - s.low + 1 := by
      rw [htoteq]
      rw [QUARTER_eq] at hQ hrange
      omega
    have htpos : 0 < totalOf (freqOf D) := by
      rw [htoteq]
      have := List.length_pos.mpr hne
      omega
    have htU : totalOf (freqOf D) < U32 := totalOf_lt_U32 _
    obtain ⟨hn1, hn2, hn3⟩ := narrow_encoder hs1 hs2 htpos htU hclch hch htr
    have hinv := @encIter_iterate_inv
      (encNarrowed (buildCum (freqOf D)) (totalOf (freqOf D)) s (D.getD k 0))
      (by simpa [encNarrowed] using hn1)
      (by simpa [encNarrowed] using le_trans hn2 hs2) n
    exact hinv
  · obtain ⟨hslt, hmod, hsym, hnl, hnh, hnhh⟩ := decoder_step_bounds hsum htot ht1 ht2 ht3
    have hinv := @decIter_iterate_inv ebc
      (decNarrowed (buildCum freq) (totalOf freq) t)
      (by simpa [decNarrowed] using hnl)
      (by simpa [decNarrowed] using hnh)
      (by simpa [decNarrowed] using le_trans hnhh ht3) n2
    exact ⟨le_trans hinv.1 hinv.2.1, hinv.2.2⟩

set_option maxRecDepth 20000 in
/-- Witness for the amended C2: input `[0, 1]` after one encoded symbol, and
the table `smallFreq` after one decoded step of an all-zero bitstream. -/
theorem c2_witness :
    IntervalOk (⟨0, 4294967295, 0⟩ : EncSt).low (⟨0, 4294967295, 0⟩ : EncSt).high ∧
    (1 < [0, 1].length →
      IntervalOk
        ((encIter^[0]) (encNarrowed (buildCum (freqOf [0, 1])) (totalOf (freqOf [0, 1]))
          ⟨0, 4294967295, 0⟩ ([0, 1].getD 1 0))).low
        ((encIter^[0]) (encNarrowed (buildCum (freqOf [0, 1])) (totalOf (freqOf [0, 1]))
          ⟨0, 4294967295, 0⟩ ([0, 1].getD 1 0))).high) ∧
    IntervalOk (⟨0, 3435973835, 0, ⟨⟨[], 0, 0⟩, 33⟩⟩ : DecSt).low
      (⟨0, 3435973835, 0, ⟨⟨[], 0, 0⟩, 33⟩⟩ : DecSt).high ∧
    IntervalOk
      (((decIter 0)^[0]) (decNarrowed (buildCum smallFreq) (totalOf smallFreq)
        ⟨0, 3435973835, 0, ⟨⟨[], 0, 0⟩, 33⟩⟩)).low
      (((decIter 0)^[0]) (decNarrowed (buildCum smallFreq) (totalOf smallFreq)
        ⟨0, 3435973835, 0, ⟨⟨[], 0, 0⟩, 33⟩⟩)).high :=
  c2_interval_invariant [0, 1] 1 0 smallFreq 0 1 0 [] ⟨0, 4294967295, 0⟩
    ⟨0, 3435973835, 0, ⟨⟨[], 0, 0⟩, 33⟩⟩
    (by decide) (by decide) (by decide) (by decide) (by decide) (by decide) (by decide)

/-! ## Renormalization terminates within the integer width (claim C10) -/

/-- Claim C10, amended: for any interval state with `low ≤ high ≤ MAX_VALUE`
(the narrowed range is at least 1, which under the encoder-side precision
contract `total ≤ QUARTER`, or on the decoder side under a non-wrapping
frequency table, holds after every narrowing), both renormalization loops
finish within 32 iterations — fuel 33 covers the final exit check — and each
iteration taken doubles the interval width; at exit the width exceeds
`QUARTER`. -/
theorem c10_renorm_termination (l h p v ebc : Nat) (bits : DecBits)
    (hlh : l ≤ h) (hh : h ≤ MAX_VALUE) (hv1 : l ≤ v) (hv2 : v ≤ h) :
    (∃ l2 h2 p2 bs, encRenorm 33 l h p = some (l2, h2, p2, bs)) ∧
    (∃ st2, decRenorm ebc 33 ⟨l, h, v, bits⟩ = some st2) ∧
    (renormActive l h →
      (encIter ⟨l, h, p⟩).high - (encIter ⟨l, h, p⟩).low + 1 = 2 * (h - l + 1) ∧
      (decIter ebc ⟨l, h, v, bits⟩).high - (decIter ebc ⟨l, h, v, bits⟩).low + 1
        = 2 * (h - l + 1)) ∧
    (¬ renormActive l h → QUARTER < h - l + 1) := by
  refine ⟨?_, ?_, ?_, ?_⟩
  · obtain ⟨l2, h2, p2, bs, heq, _⟩ := @encRenorm_terminates 33 _ _ p le_rfl hlh hh
    exact ⟨l2, h2, p2, bs, heq⟩
  · obtain ⟨st2, heq, _⟩ := @decRenorm_terminates ebc 33 le_rfl
      ⟨l, h, v, bits⟩ hv1 hv2 hh
    exact ⟨st2, heq⟩
  · intro ha
    exact ⟨encIter_doubles hlh hh ha, decIter_doubles hlh hh ha⟩
  · intro ha
    exact range_of_exit hlh ha

/-- Witness for the amended C10 at the initial interval `[0, MAX_VALUE]`. -/
theorem c10_witness :
    (∃ l2 h2 p2 bs, encRenorm 33 0 MAX_VALUE 0 = some (l2, h2, p2, bs)) ∧
    (∃ st2, decRenorm 0 33 ⟨0, MAX_VALUE, 0, ⟨⟨[], 0, 0⟩, 0⟩⟩ = some st2) ∧
    (renormActive 0 MAX_VALUE →
      (encIter ⟨0, MAX_VALUE, 0⟩).high - (encIter ⟨0, MAX_VALUE, 0⟩).low + 1
        = 2 * (MAX_VALUE - 0 + 1) ∧
      (decIter 0 ⟨0, MAX_VALUE, 0, ⟨⟨[], 0, 0⟩, 0⟩⟩).high
          - (decIter 0 ⟨0, MAX_VALUE, 0, ⟨⟨[], 0, 0⟩, 0⟩⟩).low + 1
        = 2 * (MAX_VALUE - 0 + 1)) ∧
    (¬ renormActive 0 MAX_VALUE → QUARTER < MAX_VALUE - 0 + 1) :=
  c10_renorm_termination 0 MAX_VALUE 0 0 0 ⟨⟨[], 0, 0⟩, 0⟩
    (by decide) (by decide) (by decide) (by decide)

/-! ## Intermediate products fit in 64 bits (claim C8) -/

/-- Claim C8: under the stated preconditions (`range ≤ 2^32`, which follows
from `low ≤ high ≤ MAX_VALUE`, and `total ≤ 2^32 - 1` with the cumulative
bounds and the decoder's `low ≤ value ≤ high` window), each of the three
`uint64_t` products `range * cum[s]`, `range * cum[s+1]` and
`(value - low + 1) * total` is below `2^64`, so the modelled 64-bit
multiplication loses nothing. -/
theorem c8_wide_products (low high value total cl ch : Nat)
    (h1 : low ≤ high) (h2 : high ≤ MAX_VALUE) (h3 : 0 < total) (h4 : total ≤ MAX_VALUE)
    (h5 : cl ≤ total) (h6 : ch ≤ total) (h7 : low ≤ value) (h8 : value ≤ high) :
    rangeOf low high = high - low + 1 ∧
    high - low + 1 ≤ 2 ^ 32 ∧
    (high - low + 1) * cl < M64 ∧
    (high - low + 1) * ch < M64 ∧
    (value - low + 1) * total < M64 ∧
    mul64 (rangeOf low high) cl = rangeOf low high * cl ∧
    mul64 (rangeOf low high) ch = rangeOf low high * ch ∧
    mul64 (add64 (sub64 value low) 1) total = (value - low + 1) * total := by
  have hr := rangeOf_eq h1 h2
  have hrle : high - low + 1 ≤ 2 ^ 32 := by
    rw [MAX_VALUE_eq] at h2; norm_num; omega
  have hbound : ∀ c : Nat, c ≤ total → (high - low + 1) * c < M64 := by
    intro c hc
    have hx : (high - low + 1) * c ≤ 2 ^ 32 * (2 ^ 32 - 1) := by
      apply Nat.mul_le_mul hrle
      rw [MAX_VALUE_eq] at h4; norm_num; omega
    rw [M64_eq]
    norm_num at hx
    omega
  have hvb : (value - low + 1) * total < M64 := by
    have hkle : value - low + 1 ≤ 2 ^ 32 := by
      rw [MAX_VALUE_eq] at h2; norm_num; omega
    have hx : (value - low + 1) * total ≤ 2 ^ 32 * (2 ^ 32 - 1) := by
      apply Nat.mul_le_mul hkle
      rw [MAX_VALUE_eq] at h4; norm_num; omega
    rw [M64_eq]
    norm_num at hx
    omega
  have hvM : value < M64 := lt_M64_of_le_MAX (le_trans h8 h2)
  have e1 : sub64 value low = value - low := sub64_eq h7 hvM
  have e2 : add64 (value - low) 1 = value - low + 1 := add64_eq (by
    rw [M64_eq]; rw [MAX_VALUE_eq] at h2; omega)
  refine ⟨hr, hrle, hbound cl h5, hbound ch h6, hvb, ?_, ?_, ?_⟩
  · rw [hr]; exact mul64_eq (hbound cl h5)
  · rw [hr]; exact mul64_eq (hbound ch h6)
  · rw [e1, e2]; exact mul64_eq hvb

/-- Witness for C8 at a concrete in-range state. -/
theorem c8_witness :
    rangeOf 2 4294967295 = 4294967295 - 2 + 1 ∧
    4294967295 - 2 + 1 ≤ 2 ^ 32 ∧
    (4294967295 - 2 + 1) * 3 < M64 ∧
    (4294967295 - 2 + 1) * 7 < M64 ∧
    (5 - 2 + 1) * 7 < M64 ∧
    mul64 (rangeOf 2 4294967295) 3 = rangeOf 2 4294967295 * 3 ∧
    mul64 (rangeOf 2 4294967295) 7 = rangeOf 2 4294967295 * 7 ∧
    mul64 (add64 (sub64 5 2) 1) 7 = (5 - 2 + 1) * 7 :=
  c8_wide_products 2 4294967295 5 7 3 7
    (by decide) (by decide) (by decide) (by decide) (by decide) (by decide)
    (by decide) (by decide)

end ArithCode

namespace ArithCode

/-! ## The over-long input `Dstar`: encoder precision collapse -/

set_option maxRecDepth 8000 in
theorem freqOf_Dstar : freqOf Dstar = DstarFreq := by
  funext b
  simp only [freqOf, Dstar, DstarFreq, List.count_cons, List.count_append,
    List.count_replicate, List.count_nil, beq_iff_eq, U32_eq]
  split_ifs <;> norm_num <;> omega

theorem Dstar_length : Dstar.length = 4294967295 := by
  show (2 :: 0 :: (List.replicate (2 ^ 31 - 2) 1 ++
    (List.replicate (2 ^ 30 + 1) 2 ++ List.replicate (2 ^ 30 - 2) 3)) : List Nat).length
      = 4294967295
  rw [List.length_cons, List.length_cons, List.length_append, List.length_append,
    List.length_replicate, List.length_replicate, List.length_replicate]
  norm_num

theorem Dstar_bytes : ∀ b ∈ Dstar, b < 256 := by
  intro b hb
  simp only [Dstar, List.mem_cons, List.mem_append, List.mem_replicate] at hb
  rcases hb with rfl | rfl | ⟨_, rfl⟩ | ⟨_, rfl⟩ | ⟨_, rfl⟩ <;> norm_num

set_option maxRecDepth 20000 in
theorem Dstar_total : totalOf (freqOf Dstar) = 4294967295 := by
  rw [freqOf_Dstar]
  decide

set_option maxRecDepth 20000 in
theorem Dstar_reach1 :
    encReach (buildCum (freqOf Dstar)) (totalOf (freqOf Dstar)) RENORM_FUEL Dstar 1
      = some ⟨HALF - 1, THREE_QUARTERS, 0⟩ := by
  rw [freqOf_Dstar]
  decide

set_option maxRecDepth 20000 in
theorem Dstar_narrowed :
    encNarrowed (buildCum (freqOf Dstar)) (totalOf (freqOf Dstar))
      ⟨HALF - 1, THREE_QUARTERS, 0⟩ 0 = ⟨HALF - 1, HALF - 2, 0⟩ := by
  rw [freqOf_Dstar]
  decide

set_option maxRecDepth 20000 in
theorem encodeAllBits_Dstar :
    encodeAllBits (buildCum (freqOf Dstar)) (totalOf (freqOf Dstar)) RENORM_FUEL Dstar
      = none := by
  rw [freqOf_Dstar]
  have h1 : encSym (buildCum DstarFreq) (totalOf DstarFreq) RENORM_FUEL encInit 2
      = some (⟨HALF - 1, THREE_QUARTERS, 0⟩, []) := by decide
  have h2 : encSym (buildCum DstarFreq) (totalOf DstarFreq) RENORM_FUEL
      ⟨HALF - 1, THREE_QUARTERS, 0⟩ 0 = none := by decide
  have h3 : ∀ rest : List Nat, encFold (buildCum DstarFreq) (totalOf DstarFreq) RENORM_FUEL
      (2 :: 0 :: rest) encInit = none := by
    intro rest
    simp only [encFold, h1, h2]
  have h4 : Dstar = 2 :: 0 :: (List.replicate (2 ^ 31 - 2) 1 ++
      (List.replicate (2 ^ 30 + 1) 2 ++ List.replicate (2 ^ 30 - 2) 3)) := rfl
  simp only [encodeAllBits, h4, h3]

end ArithCode

namespace ArithCode

theorem compress_Dstar : compressArithmetic Dstar = .error .renormStuck := by
  have hne : Dstar.isEmpty = false := rfl
  have ht : ¬ (totalOf (freqOf Dstar) = 0) := by
    rw [Dstar_total]
    omega
  simp only [compressArithmetic, hne, Bool.false_eq_true, if_false, ht,
    encodeAllBits_Dstar]

set_option maxRecDepth 20000 in
theorem encStuck_collapse : encStuck ⟨HALF - 1, HALF - 2, 0⟩ := by
  intro n
  have hb : ∀ m, m < 32 → renormActive
      (((encIter)^[m]) (⟨HALF - 1, HALF - 2, 0⟩ : EncSt)).low
      (((encIter)^[m]) (⟨HALF - 1, HALF - 2, 0⟩ : EncSt)).high := by decide
  rcases Nat.lt_or_ge n 32 with h | h
  · exact hb n h
  · have h32 : ((encIter)^[32]) (⟨HALF - 1, HALF - 2, 0⟩ : EncSt)
        = ⟨4294967296, 4294967295, 0⟩ := by decide
    have hfix : ∀ m, ((encIter)^[m]) (⟨4294967296, 4294967295, 0⟩ : EncSt)
        = ⟨4294967296, 4294967295, 0⟩ := by
      intro m
      induction m with
      | zero => rfl
      | succ m ih =>
        rw [Function.iterate_succ_apply', ih]
        decide
    have hn : n = (n - 32) + 32 := by omega
    rw [hn, Function.iterate_add_apply, h32, hfix]
    decide

/-! ## The crafted compressed file that hangs the decoder -/

set_option maxRecDepth 20000 in
theorem hang_total : totalOf hangFreq = 3 := by decide

set_option maxRecDepth 20000 in
theorem hang_reach1 :
    decReach (buildCum hangFreq) (totalOf hangFreq) 4 RENORM_FUEL 1 (decInit 4 [176])
      = some ⟨1431655764, 9223372038286431571, 1610612736, ⟨⟨[], 176, 4⟩, 33⟩⟩ := by
  decide

set_option maxRecDepth 20000 in
theorem hang_narrowed :
    decNarrowed (buildCum hangFreq) (totalOf hangFreq)
      ⟨1431655764, 9223372038286431571, 1610612736, ⟨⟨[], 176, 4⟩, 33⟩⟩
      = ⟨1431655764, 1431655763, 1610612736, ⟨⟨[], 176, 4⟩, 33⟩⟩ := by
  decide

set_option maxRecDepth 20000 in
theorem decStuck_collapse :
    decStuck 4 ⟨1431655764, 1431655763, 1610612736, ⟨⟨[], 176, 4⟩, 33⟩⟩ := by
  intro n
  have hb : ∀ m, m < 62 → renormActive
      (((decIter 4)^[m])
        (⟨1431655764, 1431655763, 1610612736, ⟨⟨[], 176, 4⟩, 33⟩⟩ : DecSt)).low
      (((decIter 4)^[m])
        (⟨1431655764, 1431655763, 1610612736, ⟨⟨[], 176, 4⟩, 33⟩⟩ : DecSt)).high := by
    decide
  rcases Nat.lt_or_ge n 62 with h | h
  · exact hb n h
  · have hstep : ∀ m : Nat, 4 ≤ m →
        decIter 4 ⟨4294967296, 4294967295, 4294967296, ⟨⟨[], 176, 4⟩, m⟩⟩
          = ⟨4294967296, 4294967295, 4294967296, ⟨⟨[], 176, 4⟩, m + 1⟩⟩ := by
      intro m hm
      have hro : readOneBit 4 ⟨⟨[], 176, 4⟩, m⟩ = (0, ⟨⟨[], 176, 4⟩, m + 1⟩) := by
        unfold readOneBit
        dsimp only
        rw [if_neg (by omega)]
      unfold decIter
      dsimp only
      rw [if_neg (by decide), if_pos (by decide)]
      simp only [hro]
      rfl
    have hiter : ∀ (r m : Nat), 4 ≤ m →
        ((decIter 4)^[r]) ⟨4294967296, 4294967295, 4294967296, ⟨⟨[], 176, 4⟩, m⟩⟩
          = ⟨4294967296, 4294967295, 4294967296, ⟨⟨[], 176, 4⟩, m + r⟩⟩ := by
      intro r
      induction r with
      | zero => intro m _; rfl
      | succ r ih =>
        intro m hm
        rw [Function.iterate_succ_apply, hstep m hm, ih (m + 1) (by omega)]
        have he : m + 1 + r = m + (r + 1) := by omega
        rw [he]
    have h62 : ((decIter 4)^[62])
        (⟨1431655764, 1431655763, 1610612736, ⟨⟨[], 176, 4⟩, 33⟩⟩ : DecSt)
        = ⟨4294967296, 4294967295, 4294967296, ⟨⟨[], 176, 4⟩, 95⟩⟩ := by decide
    have hn : n = (n - 62) + 62 := by omega
    rw [hn, Function.iterate_add_apply, h62, hiter (n - 62) 95 (by omega)]
    dsimp only
    decide

set_option maxRecDepth 60000 in
theorem decompress_hang :
    decompressArithmetic MAGIC 2 hangFreq 4 [176] = .error .renormStuck := by
  have hm : ¬ (MAGIC ≠ MAGIC) := fun hc => hc rfl
  have ht : ¬ (totalOf hangFreq = 0) := by
    rw [hang_total]
    omega
  have hloop : decLoop (buildCum hangFreq) (totalOf hangFreq) 4 RENORM_FUEL 2
      (decInit 4 [176]) = none := by decide
  simp only [decompressArithmetic, hm, if_false, ht, hloop]

end ArithCode

namespace ArithCode

set_option maxRecDepth 20000 in
/-- C1: the round-trip claim fails on the program itself.  On the non-empty
byte sequence `Dstar` (length `2^32 - 1`, representable in the 32-bit
`origSize` field, all entries bytes), `compressArithmetic` produces no
output at all: after the second input symbol the narrowing step collapses
the interval to `low = HALF - 1 > high = HALF - 2`, and from that state the
renormalization `while` loop is still active after every number of
iterations, so the C++ encoder never terminates and no compressed file is
written — `decode(encode(Dstar)) = Dstar` therefore fails. -/
theorem c1_roundtrip_code_bug :
    Dstar ≠ [] ∧ Dstar.length < U32 ∧ (∀ b ∈ Dstar, b < 256) ∧
    compressArithmetic Dstar = .error .renormStuck ∧
    encReach (buildCum (freqOf Dstar)) (totalOf (freqOf Dstar)) RENORM_FUEL Dstar 1
      = some ⟨HALF - 1, THREE_QUARTERS, 0⟩ ∧
    encNarrowed (buildCum (freqOf Dstar)) (totalOf (freqOf Dstar))
      ⟨HALF - 1, THREE_QUARTERS, 0⟩ (Dstar.getD 1 0) = ⟨HALF - 1, HALF - 2, 0⟩ ∧
    encStuck ⟨HALF - 1, HALF - 2, 0⟩ := by
  have hget : Dstar.getD 1 0 = 0 := rfl
  refine ⟨List.cons_ne_nil _ _, ?_, Dstar_bytes, compress_Dstar, Dstar_reach1, ?_,
    encStuck_collapse⟩
  · rw [Dstar_length]
    decide
  · rw [hget]
    exact Dstar_narrowed

set_option maxRecDepth 20000 in
/-- C2 counterexample: the invariant `low ≤ high`, with both in
`[0, 2^32 - 1]`, is not unconditional.  Encoder side: on input `Dstar`
(whose `total = 2^32 - 1` exceeds `QUARTER`), the state reached after one
symbol narrows for the next symbol — of nonzero frequency — to
`low = HALF - 1 > high = HALF - 2`.  Decoder side: a crafted header
`wrapFreqB` whose raw frequency sum wraps the `uint32_t` cumulative
counters to `total = 1` makes the very first narrowing push `high` to
`2^33 - 1`, above `2^32 - 1`. -/
theorem c2_counterexample :
    (encReach (buildCum (freqOf Dstar)) (totalOf (freqOf Dstar)) RENORM_FUEL Dstar 1
        = some ⟨HALF - 1, THREE_QUARTERS, 0⟩ ∧
      freqOf Dstar (Dstar.getD 1 0) ≠ 0 ∧
      (encNarrowed (buildCum (freqOf Dstar)) (totalOf (freqOf Dstar))
          ⟨HALF - 1, THREE_QUARTERS, 0⟩ (Dstar.getD 1 0)).high
        < (encNarrowed (buildCum (freqOf Dstar)) (totalOf (freqOf Dstar))
          ⟨HALF - 1, THREE_QUARTERS, 0⟩ (Dstar.getD 1 0)).low) ∧
    (totalOf wrapFreqB ≠ 0 ∧
      MAX_VALUE <
        (decNarrowed (buildCum wrapFreqB) (totalOf wrapFreqB) (decInit 0 [])).high) := by
  have hget : Dstar.getD 1 0 = 0 := rfl
  refine ⟨⟨Dstar_reach1, ?_, ?_⟩, ?_, ?_⟩
  · rw [hget, freqOf_Dstar]
    decide
  · rw [hget, Dstar_narrowed]
    decide
  · decide
  · decide

set_option maxRecDepth 20000 in
/-- C10 counterexample: neither renormalization loop terminates
unconditionally, even though the just-coded symbol has nonzero frequency.
Encoder: from the state reached on `Dstar` after one symbol, narrowing for
symbol `0` (frequency `1`) yields `low = HALF - 1 > high = HALF - 2`;
`encRenorm` exhausts its fuel there and the loop is still active after
every number of iterations.  Decoder: the crafted file with header
`hangFreq`, `encodedBitCount = 4` and payload byte `176` reaches, after one
decoded byte, a state whose narrowing collapses the interval, from which
the decoder loop likewise never exits. -/
theorem c10_counterexample :
    (freqOf Dstar (Dstar.getD 1 0) ≠ 0 ∧
      encNarrowed (buildCum (freqOf Dstar)) (totalOf (freqOf Dstar))
        ⟨HALF - 1, THREE_QUARTERS, 0⟩ (Dstar.getD 1 0) = ⟨HALF - 1, HALF - 2, 0⟩ ∧
      encRenorm RENORM_FUEL (HALF - 1) (HALF - 2) 0 = none ∧
      encStuck ⟨HALF - 1, HALF - 2, 0⟩) ∧
    (decReach (buildCum hangFreq) (totalOf hangFreq) 4 RENORM_FUEL 1 (decInit 4 [176])
        = some ⟨1431655764, 9223372038286431571, 1610612736, ⟨⟨[], 176, 4⟩, 33⟩⟩ ∧
      decNarrowed (buildCum hangFreq) (totalOf hangFreq)
        ⟨1431655764, 9223372038286431571, 1610612736, ⟨⟨[], 176, 4⟩, 33⟩⟩
        = ⟨1431655764, 1431655763, 1610612736, ⟨⟨[], 176, 4⟩, 33⟩⟩ ∧
      decRenorm 4 RENORM_FUEL ⟨1431655764, 1431655763, 1610612736, ⟨⟨[], 176, 4⟩, 33⟩⟩
        = none ∧
      decStuck 4 ⟨1431655764, 1431655763, 1610612736, ⟨⟨[], 176, 4⟩, 33⟩⟩) := by
  have hget : Dstar.getD 1 0 = 0 := rfl
  refine ⟨⟨?_, ?_, by decide, encStuck_collapse⟩,
    hang_reach1, hang_narrowed, by decide, decStuck_collapse⟩
  · rw [hget, freqOf_Dstar]
    decide
  · rw [hget]
    exact Dstar_narrowed

set_option maxRecDepth 60000 in
/-- C7 counterexample: a well-formed header (correct magic, `total = 3 > 0`,
`origSize = 2`) does not guarantee that `origSize` bytes are produced.
With the frequency table `hangFreq` — whose raw sum `2^32 + 3` wraps the
`uint32_t` cumulative counters — `encodedBitCount = 4` and the single
payload byte `176`, the decoder decodes one byte and then reaches a state
from which the renormalization loop never exits: the C++ program hangs
with only part of the promised output produced. -/
theorem c7_counterexample :
    totalOf hangFreq = 3 ∧
    decompressArithmetic MAGIC 2 hangFreq 4 [176] = .error .renormStuck ∧
    decReach (buildCum hangFreq) (totalOf hangFreq) 4 RENORM_FUEL 1 (decInit 4 [176])
      = some ⟨1431655764, 9223372038286431571, 1610612736, ⟨⟨[], 176, 4⟩, 33⟩⟩ ∧
    decStuck 4
      (decNarrowed (buildCum hangFreq) (totalOf hangFreq)
        ⟨1431655764, 9223372038286431571, 1610612736, ⟨⟨[], 176, 4⟩, 33⟩⟩) := by
  refine ⟨hang_total, decompress_hang, hang_reach1, ?_⟩
  rw [hang_narrowed]
  exact decStuck_collapse

end ArithCode
